import Mathlib

/-!
Verification development for the EDSParser repository (C++ sources under
src/cpp/lib).  The definitions below are a shallow embedding of the core EDS
data engine: the textual parser and normalizer, the metadata index, the
statistics folds, the source (provenance) algebra, position checking, the
adjacent-merge operator, and the EDS to l-EDS convergence driver
(src/cpp/lib/formats/eds.cpp and src/cpp/lib/transforms/eds_transforms.cpp).

Modelling conventions:
* C++ strings are `List Char`; `std::vector` is `List`; `std::set int` (path
  id sets, always non-negative after parsing) is `Finset Nat`.
* Machine integers (`size_t`, `uint32_t`, `uint64_t`) are modelled as `Nat`;
  the claims under study are structural counting identities on small data
  where no arithmetic wraps.
* Fallible operations return `Except Err`; each `Err` constructor corresponds
  to one `throw` site in the C++.
* Loops with a data-dependent bound take an explicit fuel argument so that
  every function is structural; callers always pass enough fuel, and the fuel
  branch is semantically the unreachable case.
* An out-of-bounds `std::vector::operator[]` read is undefined behaviour in
  the C++.  Where such a read is reachable (the position-resolution helper
  `find_symbol_at_common_position` indexes `is_degenerate[n]` when the queried
  common position is past the last entry of `cum_common_positions`) the read
  is modelled as a fault (`Err.oobIndex`), like `std::vector::at`.  Where the
  surrounding claims always supply in-range indices, unchecked reads are
  modelled with `List.getD`.
-/

deriving instance DecidableEq for Except

namespace edsparser

/-- Opening brace constant, `SET_OPEN` in common.hpp. -/
def SET_OPEN : Char := '\x7b'

/-- Closing brace constant, `SET_CLOSE` in common.hpp. -/
def SET_CLOSE : Char := '\x7d'

/-- Separator constant, `SET_SEPARATOR` in common.hpp. -/
def SET_SEPARATOR : Char := ','

/-- The whitespace predicate used by `::isspace` in the "C" locale:
space, tab, newline, vertical tab, form feed, carriage return. -/
def isSpace (c : Char) : Bool :=
  c = ' ' || c = '\t' || c = '\n' || c = '\x0b' || c = '\x0c' || c = '\r'

/-- Error values; one constructor per C++ `throw` site relevant to the claims. -/
inductive Err where
  /-- parse: expected an opening brace. -/
  | expectedOpen (pos : Nat)
  /-- parse: expected a closing brace. -/
  | expectedClose (pos : Nat)
  /-- parse: a symbol with zero alternatives (dead code in the C++; kept). -/
  | emptySet (pos : Nat)
  /-- fuel exhausted (modelling artifact, unreachable with enough fuel). -/
  | fuel
  /-- parse_sources: expected an opening brace. -/
  | sedsExpectedOpen (pos : Nat)
  /-- parse_sources: expected a closing brace. -/
  | sedsExpectedClose (pos : Nat)
  /-- parse_sources: invalid character. -/
  | sedsInvalidChar (pos : Nat)
  /-- parse_sources: empty path set. -/
  | sedsEmptySet (idx : Nat)
  /-- parse_sources: source count does not match EDS cardinality. -/
  | sedsCountMismatch
  /-- merge_adjacent: positions not adjacent. -/
  | notAdjacent
  /-- merge_adjacent: position out of range. -/
  | mergePosOutOfRange
  /-- merge_adjacent: merging results in an empty set (no valid source intersections). -/
  | emptyMergedSet
  /-- find_symbol_at_common_position: common position before EDS start. -/
  | beforeStart
  /-- an out-of-bounds vector read (C++ UB, modelled as a fault). -/
  | oobIndex
  /-- find_symbol_at_common_position: common position points to a degenerate symbol. -/
  | degenerateCommonPos
  /-- find_symbol_at_common_position / reconstruct: offset exceeds symbol length. -/
  | offsetExceeds
  /-- reconstruct / path intersection: not enough degenerate strings provided. -/
  | needMoreDegStrings
  /-- reconstruct / path intersection: degenerate string belongs to another symbol. -/
  | degStringMismatch
  /-- decode_degenerate_string_number: negative or unresolvable degenerate string number. -/
  | invalidDegString
  /-- decode_degenerate_string_number: number maps to a non-degenerate symbol. -/
  | degMapsToCommon
  /-- decode_degenerate_string_number: local index out of range for the symbol. -/
  | localIdxOut
  /-- path intersection: string id out of range for sources. -/
  | sourcesIdxOut
  /-- read_symbol: position out of range. -/
  | readPosOutOfRange
  /-- l-EDS driver: maximum iterations reached without convergence. -/
  | noConvergence
  /-- l-EDS driver: context_length must be positive. -/
  | contextLengthZero
deriving DecidableEq, Repr

/-- One step state of `EDS::normalize_eds_format` (eds.cpp:831): the loop
carries `result`, `current_string` and the `int brace_depth`. -/
def normalizeAux : List Char → List Char → List Char → Int → List Char
  | [], result, cur, depth =>
      if cur ≠ [] ∧ depth = 0 then result ++ SET_OPEN :: cur ++ [SET_CLOSE] else result
  | c :: rest, result, cur, depth =>
      if c = SET_OPEN then
        let flushed := if cur ≠ [] ∧ depth = 0 then result ++ SET_OPEN :: cur ++ [SET_CLOSE] else result
        let cur1 := if cur ≠ [] ∧ depth = 0 then ([] : List Char) else cur
        normalizeAux rest (flushed ++ [c]) cur1 (depth + 1)
      else if c = SET_CLOSE then
        normalizeAux rest (result ++ [c]) cur (depth - 1)
      else if 0 < depth then
        normalizeAux rest (result ++ [c]) cur depth
      else
        normalizeAux rest result (cur ++ [c]) depth

/-- `EDS::normalize_eds_format`: wrap maximal bare (non-bracketed) runs in braces. -/
def normalize_eds_format (input : List Char) : List Char :=
  normalizeAux input [] [] 0

/-- The inner loop of `EDS::parse` (eds.cpp:90-120): scan the alternatives of one
symbol up to the closing brace, splitting on the separator.  Returns the list of
alternatives (the final one is always pushed, even when empty) and the unconsumed
input starting at the closing brace (or `[]` if the input ran out). -/
def scanAlts : List Char → List Char → List (List Char) × List Char
  | [], cur => ([cur], [])
  | c :: rest, cur =>
      if c = SET_CLOSE then ([cur], c :: rest)
      else if c = SET_SEPARATOR then
        let r := scanAlts rest []
        (cur :: r.1, r.2)
      else
        scanAlts rest (cur ++ [c])

/-- The accumulating state of the `EDS::parse` loop: metadata arrays, the
materialized sets (FULL storage mode) and the scalar counters `n_`, `m_`, `N_`. -/
structure Build where
  base_positions : List Nat
  symbol_sizes : List Nat
  string_lengths : List Nat
  cum_set_sizes : List Nat
  is_degenerate : List Bool
  sets : List (List (List Char))
  n : Nat
  m : Nat
  N : Nat
deriving DecidableEq, Repr

/-- The cleared state at the start of `EDS::parse`. -/
def Build.empty : Build := ⟨[], [], [], [], [], [], 0, 0, 0⟩

/-- One iteration of the `EDS::parse` loop after a symbol's alternatives were
scanned (eds.cpp:133-144): push every metadata entry, the set itself, and bump
the counters.  `cum_set_sizes` records `m_` before it is increased. -/
def pushSymbol (st : Build) (base : Nat) (alts : List (List Char)) : Build :=
  { base_positions := st.base_positions ++ [base]
    symbol_sizes := st.symbol_sizes ++ [alts.length]
    string_lengths := st.string_lengths ++ alts.map List.length
    cum_set_sizes := st.cum_set_sizes ++ [st.m]
    is_degenerate := st.is_degenerate ++ [decide (1 < alts.length)]
    sets := st.sets ++ [alts]
    n := st.n + 1
    m := st.m + alts.length
    N := st.N + (alts.map List.length).sum }

/-- The symbol loop of `EDS::parse` (eds.cpp:74-145).  `pos` tracks the byte
position in the (whitespace-stripped, normalized) input for error messages.
The zero-alternative check after the closing brace mirrors eds.cpp:129 even
though `symbol_size` is always at least 1 there. -/
def parseLoop : Nat → List Char → Nat → Build → Except Err Build
  | 0, _, _, _ => .error .fuel
  | _ + 1, [], _, st => .ok st
  | fuel + 1, c :: rest, pos, st =>
      if c ≠ SET_OPEN then .error (.expectedOpen pos)
      else
        let r := scanAlts rest []
        let stop := pos + 1 + (rest.length - r.2.length)
        match r.2 with
        | [] => .error (.expectedClose stop)
        | c2 :: rest2 =>
            if c2 ≠ SET_CLOSE then .error (.expectedClose stop)
            else if r.1.length = 0 then .error (.emptySet (stop + 1))
            else parseLoop fuel rest2 (stop + 1) (pushSymbol st pos r.1)

/-- The `cum_common_positions` fold of `EDS::calculate_statistics`
(eds.cpp:438-455): walk the symbols; a non-degenerate symbol adds the length of
its (first) string, looked up at the running global string index. -/
def calcCcpGo : List (Bool × Nat) → List Nat → Nat → Nat → List Nat
  | [], _, _, _ => []
  | (deg, size) :: rest, lens, sidx, cum =>
      let cum1 := if deg then cum else cum + lens.getD sidx 0
      cum1 :: calcCcpGo rest lens (sidx + size) cum1

/-- `cum_common_positions`: n+1 entries, starting with 0. -/
def calcCcp (is_deg : List Bool) (sizes : List Nat) (lens : List Nat) : List Nat :=
  0 :: calcCcpGo (is_deg.zip sizes) lens 0 0

/-- The `cum_degenerate_counts` fold of `EDS::calculate_statistics`
(eds.cpp:457-469): a degenerate symbol adds its size. -/
def calcCdcGo : List (Bool × Nat) → Nat → List Nat
  | [], _ => []
  | (deg, size) :: rest, cum =>
      let cum1 := if deg then cum + size else cum
      cum1 :: calcCdcGo rest cum1

/-- `cum_degenerate_counts`: n+1 entries, starting with 0. -/
def calcCdc (is_deg : List Bool) (sizes : List Nat) : List Nat :=
  0 :: calcCdcGo (is_deg.zip sizes) 0

/-- The EDS instance (FULL storage mode).  Fields mirror the private state of
class `EDS` (eds.hpp:171-191) and its `Metadata` (eds.hpp:79-104); the
floating-point and scalar statistics fields (min/max/avg context length and
the various counts), which no claim references, are not modelled. -/
structure EDS where
  is_empty : Bool
  n : Nat
  N : Nat
  m : Nat
  base_positions : List Nat
  symbol_sizes : List Nat
  string_lengths : List Nat
  cum_set_sizes : List Nat
  is_degenerate : List Bool
  cum_common_positions : List Nat
  cum_degenerate_counts : List Nat
  sets : List (List (List Char))
  has_sources : Bool
  sources : List (Finset Nat)
deriving DecidableEq

instance : Inhabited EDS :=
  ⟨⟨true, 0, 0, 0, [], [], [], [], [], [], [], [], false, []⟩⟩

/-- The empty instance produced by `EDS::parse` on whitespace-only input
(eds.cpp:48-54): `is_empty_ = true`, all counters zero, arrays empty. -/
def emptyEDS : EDS :=
  ⟨true, 0, 0, 0, [], [], [], [], [], [], [], [], false, []⟩

/-- Package a finished parse `Build` into an `EDS`, running
`calculate_statistics` (the `cum_common_positions` / `cum_degenerate_counts`
part) as `EDS::parse` does on success (eds.cpp:150-154). -/
def finalizeBuild (st : Build) : EDS :=
  { is_empty := false
    n := st.n
    N := st.N
    m := st.m
    base_positions := st.base_positions
    symbol_sizes := st.symbol_sizes
    string_lengths := st.string_lengths
    cum_set_sizes := st.cum_set_sizes
    is_degenerate := st.is_degenerate
    cum_common_positions := calcCcp st.is_degenerate st.symbol_sizes st.string_lengths
    cum_degenerate_counts := calcCdc st.is_degenerate st.symbol_sizes
    sets := st.sets
    has_sources := false
    sources := [] }

/-- `EDS::parse` (eds.cpp:39-155): strip whitespace, detect empty input,
normalize compact form, then run the symbol loop.  The fuel `input.length + 1`
always suffices because every loop iteration consumes at least one character. -/
def EDS.parse (input0 : List Char) : Except Err EDS :=
  let input1 := input0.filter (fun c => ¬ isSpace c)
  if input1 = [] then .ok emptyEDS
  else
    let input := normalize_eds_format input1
    match parseLoop (input.length + 1) input 0 Build.empty with
    | .error e => .error e
    | .ok st => if st.n = 0 then .ok emptyEDS else .ok (finalizeBuild st)

/-- The source-set intersection with special handling of the universal marker
`0`, exactly as computed inline at eds.cpp:1479-1500 (merge), eds.cpp:1652-1669
(merge, FULL-mode sets) and eds.cpp:1378-1400 (path intersection). -/
def interSrc (s1 s2 : Finset Nat) : Finset Nat :=
  if 0 ∈ s1 ∧ 0 ∈ s2 then {0}
  else if 0 ∈ s1 then s2
  else if 0 ∈ s2 then s1
  else s1 ∩ s2

/-- Prefix sums: entry `i` is the sum of the first `i` sizes.  This is the
value pattern of the C++ merge loop, which pushes the running
`current_string_idx` before adding each symbol's size (eds.cpp:1546,1562,1575). -/
def cumsOfList (sizes : List Nat) : List Nat :=
  (List.range sizes.length).map (fun i => (sizes.take i).sum)

/-- Per-symbol sizes derived from the materialized sets. -/
def sizesOf (sets : List (List (List Char))) : List Nat :=
  sets.map List.length

/-- Lengths of one symbol's alternatives. -/
def symLensOf (alts : List (List Char)) : List Nat :=
  alts.map List.length

/-- The flat `string_lengths` array derived from the materialized sets. -/
def lengthsOf (sets : List (List (List Char))) : List Nat :=
  sets.flatMap symLensOf

/-- The `is_degenerate` flags derived from the materialized sets. -/
def degOf (sets : List (List (List Char))) : List Bool :=
  sets.map (fun s => decide (1 < s.length))

/-- Well-formedness of an `EDS` value: the metadata arrays and scalar counters
agree with the canonical values derived from the materialized sets, every
symbol is non-empty, and (when sources are loaded) there is one non-empty
source set per string.  `EDS.parse` establishes this and `merge_adjacent`
preserves it. -/
def WF (e : EDS) : Prop :=
  e.is_empty = decide (e.n = 0) ∧
  e.n = e.sets.length ∧
  e.m = (sizesOf e.sets).sum ∧
  e.N = (lengthsOf e.sets).sum ∧
  e.symbol_sizes = sizesOf e.sets ∧
  e.string_lengths = lengthsOf e.sets ∧
  e.cum_set_sizes = cumsOfList (sizesOf e.sets) ∧
  e.is_degenerate = degOf e.sets ∧
  e.cum_common_positions =
    (if e.sets = [] then [] else calcCcp (degOf e.sets) (sizesOf e.sets) (lengthsOf e.sets)) ∧
  e.cum_degenerate_counts =
    (if e.sets = [] then [] else calcCdc (degOf e.sets) (sizesOf e.sets)) ∧
  e.base_positions.length = e.n ∧
  (∀ s ∈ e.sets, s ≠ []) ∧
  (e.has_sources = true → e.sources.length = e.m ∧ ∀ src ∈ e.sources, src ≠ ∅)

instance (e : EDS) : Decidable (WF e) := by
  unfold WF; infer_instance

/-- Alternatives produced by the parser never contain a closing brace, a
separator, or whitespace (whitespace is stripped before parsing and the
alternative scan stops at the other two). -/
def CleanSets (sets : List (List (List Char))) : Prop :=
  ∀ s ∈ sets, ∀ a ∈ s, ∀ c ∈ a, c ≠ SET_CLOSE ∧ c ≠ SET_SEPARATOR ∧ isSpace c = false

instance (sets : List (List (List Char))) : Decidable (CleanSets sets) := by
  unfold CleanSets; infer_instance

/-- The kept pairs of the LINEAR branch of `EDS::merge_adjacent`
(eds.cpp:1469-1510), in product order: for each ordered pair with non-empty
source intersection, the intersection and the concatenated length. -/
def linPairsOf (e : EDS) (pos1 pos2 : Nat) : List (Finset Nat × Nat) :=
  (List.range (e.symbol_sizes.getD pos1 0)).flatMap (fun i =>
    (List.range (e.symbol_sizes.getD pos2 0)).filterMap (fun j =>
      let inter := interSrc
        (e.sources.getD (e.cum_set_sizes.getD pos1 0 + i) ∅)
        (e.sources.getD (e.cum_set_sizes.getD pos2 0 + j) ∅)
      if inter = ∅ then none
      else some (inter,
        e.string_lengths.getD (e.cum_set_sizes.getD pos1 0 + i) 0 +
        e.string_lengths.getD (e.cum_set_sizes.getD pos2 0 + j) 0)))

/-- The merged symbol's size: the product of the two sizes in cartesian mode,
the number of kept pairs in linear mode (eds.cpp:1457-1510). -/
def mergedSizeOf (e : EDS) (pos1 pos2 : Nat) : Nat :=
  if e.has_sources then (linPairsOf e pos1 pos2).length
  else e.symbol_sizes.getD pos1 0 * e.symbol_sizes.getD pos2 0

/-- The merged symbol's alternatives, FULL mode (eds.cpp:1633-1676): all
pairwise concatenations in product order, filtered by non-empty source
intersection in linear mode. -/
def mergedSetOf (e : EDS) (pos1 pos2 : Nat) : List (List Char) :=
  let set1 := e.sets.getD pos1 []
  let set2 := e.sets.getD pos2 []
  if e.has_sources then
    (List.range set1.length).flatMap (fun i =>
      (List.range set2.length).filterMap (fun j =>
        let inter := interSrc
          (e.sources.getD (e.cum_set_sizes.getD pos1 0 + i) ∅)
          (e.sources.getD (e.cum_set_sizes.getD pos2 0 + j) ∅)
        if inter = ∅ then none
        else some (set1.getD i [] ++ set2.getD j [])))
  else
    set1.flatMap (fun a => set2.map (fun b => a ++ b))

/-- The result record built by `EDS::merge_adjacent` after validation
(eds.cpp:1522-1694): the metadata copy loops (embedded as maps over index
ranges), the source rebuild (which walks a flat running index), the merged set,
and the final `calculate_statistics`. -/
def mergeBuild (e : EDS) (pos1 pos2 : Nat) : EDS :=
  let merged_size := mergedSizeOf e pos1 pos2
  let merged_string_lengths :=
    if e.has_sources then (linPairsOf e pos1 pos2).map Prod.snd
    else
      (List.range (e.symbol_sizes.getD pos1 0)).flatMap (fun i =>
        (List.range (e.symbol_sizes.getD pos2 0)).map (fun j =>
          e.string_lengths.getD (e.cum_set_sizes.getD pos1 0 + i) 0 +
          e.string_lengths.getD (e.cum_set_sizes.getD pos2 0 + j) 0))
  let sufCount := e.n - (pos2 + 1)
  let newSizes :=
    (List.range pos1).map (fun i => e.symbol_sizes.getD i 0)
    ++ [merged_size]
    ++ (List.range sufCount).map (fun t => e.symbol_sizes.getD (pos2 + 1 + t) 0)
  let newDeg :=
    (List.range pos1).map (fun i => e.is_degenerate.getD i false)
    ++ [decide (1 < merged_size)]
    ++ (List.range sufCount).map (fun t => e.is_degenerate.getD (pos2 + 1 + t) false)
  let symLens : Nat → List Nat := fun i =>
    (List.range (e.symbol_sizes.getD i 0)).map (fun j =>
      e.string_lengths.getD (e.cum_set_sizes.getD i 0 + j) 0)
  let newLens :=
    (List.range pos1).flatMap symLens
    ++ merged_string_lengths
    ++ (List.range sufCount).flatMap (fun t => symLens (pos2 + 1 + t))
  { is_empty := false
    n := e.n - 1
    N := newLens.sum
    m := newSizes.sum
    base_positions :=
      (List.range pos1).map (fun i => e.base_positions.getD i 0)
      ++ [e.base_positions.getD pos1 0]
      ++ (List.range sufCount).map (fun t => e.base_positions.getD (pos2 + 1 + t) 0)
    symbol_sizes := newSizes
    string_lengths := newLens
    cum_set_sizes := cumsOfList newSizes
    is_degenerate := newDeg
    cum_common_positions := calcCcp newDeg newSizes newLens
    cum_degenerate_counts := calcCdc newDeg newSizes
    sets :=
      (List.range pos1).map (fun i => e.sets.getD i [])
      ++ [mergedSetOf e pos1 pos2]
      ++ (List.range sufCount).map (fun t => e.sets.getD (pos2 + 1 + t) [])
    has_sources := e.has_sources
    sources :=
      if e.has_sources then
        (List.range (((List.range pos1).map (fun i => e.symbol_sizes.getD i 0)).sum)).map
          (fun t => e.sources.getD t ∅)
        ++ (linPairsOf e pos1 pos2).map Prod.fst
        ++ (List.range (((List.range sufCount).map
              (fun t => e.symbol_sizes.getD (pos2 + 1 + t) 0)).sum)).map
          (fun t => e.sources.getD
            (e.cum_set_sizes.getD pos2 0 + e.symbol_sizes.getD pos2 0 + t) ∅)
      else [] }

/-- `EDS::merge_adjacent` (eds.cpp:1425-1695), FULL storage mode: the
adjacency and range validation, the linear-mode empty-merge check, and the
result construction. -/
def EDS.merge_adjacent (e : EDS) (pos1 pos2 : Nat) : Except Err EDS :=
  if pos2 ≠ pos1 + 1 then .error .notAdjacent
  else if pos1 ≥ e.n ∨ pos2 ≥ e.n then .error .mergePosOutOfRange
  else if e.has_sources ∧ mergedSizeOf e pos1 pos2 = 0 then .error .emptyMergedSet
  else .ok (mergeBuild e pos1 pos2)

/-- The call protocol of the `const` method `EDS::merge_adjacent`: the receiver
state is threaded explicitly.  The method body contains no assignment to the
receiver (all writes target the local `result`), so the post-call receiver
component is the unchanged input. -/
def mergeAdjacentCall (e : EDS) (pos1 pos2 : Nat) : EDS × Except Err EDS :=
  (e, e.merge_adjacent pos1 pos2)

/-- The universal source marker, written `\x7b0\x7d` in source files. -/
def univSrc : Finset Nat := {0}

/-- A well-formed source set (spec section 3, "Sources"): either exactly the
universal marker, or a non-empty set of positive path ids. -/
def WFSrc (s : Finset Nat) : Prop :=
  s = univSrc ∨ (s ≠ ∅ ∧ 0 ∉ s)

/-- How one `Build` state extends another after parsing a list of symbols:
every array gains the canonical entries of the new symbols and the counters
gain their totals.  (Base positions are input-offset dependent, so only their
count is recorded.) -/
def ExtendsB (st st2 : Build) (syms : List (List (List Char))) : Prop :=
  st2.sets = st.sets ++ syms ∧
  st2.symbol_sizes = st.symbol_sizes ++ sizesOf syms ∧
  st2.string_lengths = st.string_lengths ++ lengthsOf syms ∧
  st2.is_degenerate = st.is_degenerate ++ degOf syms ∧
  st2.cum_set_sizes = st.cum_set_sizes ++ (cumsOfList (sizesOf syms)).map (st.m + ·) ∧
  st2.m = st.m + (sizesOf syms).sum ∧
  st2.N = st.N + (lengthsOf syms).sum ∧
  st2.n = st.n + syms.length ∧
  st2.base_positions.length = st.base_positions.length + syms.length

/-- Guarantees the parser offers about the symbols it produces from `input`:
every symbol is non-empty and every character of every alternative comes from
`input` and is neither a closing brace nor a separator. -/
def SymsOk (syms : List (List (List Char))) (input : List Char) : Prop :=
  ∀ s ∈ syms, s ≠ [] ∧ ∀ a ∈ s, ∀ c ∈ a, c ∈ input ∧ c ≠ SET_CLOSE ∧ c ≠ SET_SEPARATOR

/-- One symbol in full bracketed form: `\x7b alt , ... , alt \x7d`. -/
def renderSymbol (alts : List (List Char)) : List Char :=
  SET_OPEN :: List.intercalate [SET_SEPARATOR] alts ++ [SET_CLOSE]

/-- `EDS::save` (eds.cpp:600-631) on the FULL-mode sets: brackets are used
when the format is FULL or the symbol is degenerate (read from metadata);
alternatives are joined by the separator; a final newline is written. -/
def save_chars (e : EDS) (compact : Bool) : List Char :=
  ((List.range e.sets.length).map (fun i =>
    let set := e.sets.getD i []
    let useBrackets := ¬ compact ∨ e.is_degenerate.getD i false
    if useBrackets then renderSymbol set else List.intercalate [SET_SEPARATOR] set)).flatten
  ++ ['\n']

/-- Compact rendering at the sets level: brackets only around degenerate
symbols (what `save_chars e true` produces for a well-formed instance). -/
def compactRender (sets : List (List (List Char))) : List Char :=
  (sets.map (fun s =>
    if 1 < s.length then renderSymbol s else List.intercalate [SET_SEPARATOR] s)).flatten

/-- All-bracketed rendering at the sets level (what `reconstruct_eds` in
eds_transforms.cpp writes for every output symbol). -/
def bracedRender (sets : List (List (List Char))) : List Char :=
  (sets.map renderSymbol).flatten

/-- The digit scan of `EDS::parse_sources` for one source group
(eds.cpp:294-327): collect decimal digits, insert the accumulated value at a
separator or at the end, reject any other character.  Returns the set and the
unconsumed input starting at the closing brace. -/
def scanSrcSet : List Char → Nat → List Char → Finset Nat →
    Except Err (Finset Nat × List Char × Nat)
  | [], pos, _, _ =>
      -- the input ran out before the closing brace: the C++ still inserts the
      -- final number (eds.cpp:321-327, unobservable) and then the brace check
      -- fails (eds.cpp:330).
      .error (.sedsExpectedClose pos)
  | c :: rest, pos, curNum, acc =>
      if c = SET_CLOSE then
        let acc1 := if curNum ≠ [] then insert (curNum.foldl (fun a c => a * 10 + (c.toNat - '0'.toNat)) 0) acc else acc
        .ok (acc1, c :: rest, pos)
      else if c = SET_SEPARATOR then
        let acc1 := if curNum ≠ [] then insert (curNum.foldl (fun a c => a * 10 + (c.toNat - '0'.toNat)) 0) acc else acc
        scanSrcSet rest (pos + 1) [] acc1
      else if c.isDigit then
        scanSrcSet rest (pos + 1) (curNum ++ [c]) acc
      else
        .error (.sedsInvalidChar pos)

/-- The group loop of `EDS::parse_sources` (eds.cpp:287-343). -/
def parseSourcesLoop : Nat → List Char → Nat → List (Finset Nat) →
    Except Err (List (Finset Nat))
  | 0, _, _, _ => .error .fuel
  | _ + 1, [], _, acc => .ok acc
  | fuel + 1, c :: rest, pos, acc =>
      if c ≠ SET_OPEN then .error (.sedsExpectedOpen pos)
      else
        match scanSrcSet rest (pos + 1) [] ∅ with
        | .error e => .error e
        | .ok (pathSet, _, stopPos) =>
            -- `scanSrcSet` only returns at a closing brace, which is consumed here.
            if pathSet = ∅ then .error (.sedsEmptySet acc.length)
            else
              let consumed := stopPos - pos
              parseSourcesLoop fuel (rest.drop consumed) (stopPos + 1) (acc ++ [pathSet])

/-- `EDS::parse_sources` (eds.cpp:268-355): strip whitespace, parse `m` groups,
check the cardinality, set `has_sources_`.  (The derived source statistics,
which no claim references, are not modelled.) -/
def EDS.load_sources (e : EDS) (input0 : List Char) : Except Err EDS :=
  let input1 := input0.filter (fun c => ¬ isSpace c)
  if input1 = [] then .error (.sedsExpectedOpen 0)
  else
    match parseSourcesLoop (input1.length + 1) input1 0 [] with
    | .error err => .error err
    | .ok srcs =>
        if srcs.length ≠ e.m then .error .sedsCountMismatch
        else .ok { e with has_sources := true, sources := srcs }

/-- The two-stream constructor `EDS(eds_stream, seds_stream)` (eds.cpp:20-23):
parse the EDS text, then the sources. -/
def EDS.parseWithSources (edsText sedsText : List Char) : Except Err EDS :=
  match EDS.parse edsText with
  | .error err => .error err
  | .ok e => e.load_sources sedsText

/-- `std::upper_bound` over a monotone vector: index of the first element
strictly greater than `v`, or the length if there is none. -/
def upperBound (l : List Nat) (v : Nat) : Nat :=
  match l.findIdx? (fun x => decide (v < x)) with
  | some i => i
  | none => l.length

/-- `EDS::find_symbol_at_common_position` (eds.cpp:1098-1138): binary search in
`cum_common_positions`, reject degenerate symbols and offsets past the
symbol's length.  Reads past a vector's end (reachable when `common_pos` is at
or beyond the total number of common characters, making `symbol_idx = n`) are
modelled as `Err.oobIndex` faults. -/
def find_symbol_at_common_position (e : EDS) (common_pos : Nat) :
    Except Err (Nat × Nat) :=
  let ub := upperBound e.cum_common_positions common_pos
  if ub = 0 then .error .beforeStart
  else
    let symbol_idx := ub - 1
    match e.is_degenerate[symbol_idx]? with
    | none => .error .oobIndex
    | some deg =>
        if deg then .error .degenerateCommonPos
        else
          let offset := common_pos - e.cum_common_positions.getD symbol_idx 0
          match e.cum_set_sizes[symbol_idx]? with
          | none => .error .oobIndex
          | some g =>
              match e.string_lengths[g]? with
              | none => .error .oobIndex
              | some symbol_length =>
                  if offset ≥ symbol_length then .error .offsetExceeds
                  else .ok (symbol_idx, offset)

/-- `EDS::decode_degenerate_string_number` (eds.cpp:1051-1095): reject negative
numbers, binary search in `cum_degenerate_counts`, check the landing symbol is
degenerate and the local index in range. -/
def decode_degenerate_string_number (e : EDS) (abs_string_num : Int) :
    Except Err (Nat × Nat) :=
  if abs_string_num < 0 then .error .invalidDegString
  else
    let v := abs_string_num.toNat
    let ub := upperBound e.cum_degenerate_counts v
    if ub = 0 then .error .invalidDegString
    else
      let symbol_idx := ub - 1
      match e.is_degenerate[symbol_idx]? with
      | none => .error .oobIndex
      | some deg =>
          if ¬ deg then .error .degMapsToCommon
          else
            let local_idx := v - e.cum_degenerate_counts.getD symbol_idx 0
            if local_idx ≥ e.symbol_sizes.getD symbol_idx 0 then .error .localIdxOut
            else .ok (symbol_idx, local_idx)

/-- The loop body state of `EDS::reconstruct_from_memory` (eds.cpp:1141-1209).
The loop runs while `symbol_idx < n` and fewer than `pattern_length` characters
were produced; the fuel argument only bounds the recursion and is always at
least `n - symbol_idx` at the call sites. -/
def reconstructGo (e : EDS) (ds : List Int) (offset_in_symbol plen : Nat) :
    Nat → Nat → Nat → Bool → List Char → Except Err (List Char)
  | 0, _, _, _, result => .ok result
  | fuel + 1, symbol_idx, deg_idx, first, result =>
      if symbol_idx < e.n ∧ result.length < plen then
        if e.is_degenerate.getD symbol_idx false then
          match ds[deg_idx]? with
          | none => .error .needMoreDegStrings
          | some absNum =>
              match decode_degenerate_string_number e absNum with
              | .error err => .error err
              | .ok (expected_symbol, local_idx) =>
                  if expected_symbol ≠ symbol_idx then .error .degStringMismatch
                  else
                    let str := (e.sets.getD symbol_idx []).getD local_idx []
                    let take := min str.length (plen - result.length)
                    reconstructGo e ds offset_in_symbol plen fuel (symbol_idx + 1)
                      (deg_idx + 1) first (result ++ str.take take)
        else
          let str0 := (e.sets.getD symbol_idx []).getD 0 []
          if first ∧ 0 < offset_in_symbol then
            if offset_in_symbol ≥ str0.length then .error .offsetExceeds
            else
              let str := str0.drop offset_in_symbol
              let take := min str.length (plen - result.length)
              reconstructGo e ds offset_in_symbol plen fuel (symbol_idx + 1)
                deg_idx false (result ++ str.take take)
          else
            let take := min str0.length (plen - result.length)
            reconstructGo e ds offset_in_symbol plen fuel (symbol_idx + 1)
              deg_idx first (result ++ str0.take take)
      else .ok result

/-- `EDS::reconstruct_from_memory` (FULL storage mode). -/
def reconstruct_from_memory (e : EDS) (start_symbol offset_in_symbol : Nat)
    (ds : List Int) (plen : Nat) : Except Err (List Char) :=
  reconstructGo e ds offset_in_symbol plen e.n start_symbol 0 true []

/-- The loop of `EDS::calculate_path_intersection` (eds.cpp:1300-1418).  State:
current symbol, next index into `degenerate_strings`, characters counted so
far, the `first` flag and the running intersection.  An empty running
intersection or an offset past the first symbol's length returns the empty
set; missing or mismatched degenerate numbers and out-of-range source ids are
errors, as in the C++. -/
def pathInterGo (e : EDS) (ds : List Int) (start_symbol offset_in_symbol plen : Nat) :
    Nat → Nat → Nat → Nat → Bool → Finset Nat → Except Err (Finset Nat)
  | 0, _, _, _, _, inter => .ok inter
  | fuel + 1, symbol_idx, deg_idx, chars_counted, first, inter =>
      if symbol_idx < e.n ∧ chars_counted < plen then
        let degSym := e.is_degenerate.getD symbol_idx false
        let step : Except Err (Nat × Nat × Nat) :=
          -- computes (global_string_idx, next deg_idx, chars after the common-symbol update)
          if degSym then
            match ds[deg_idx]? with
            | none => .error .needMoreDegStrings
            | some absNum =>
                match decode_degenerate_string_number e absNum with
                | .error err => .error err
                | .ok (expected_symbol, local_idx) =>
                    if expected_symbol ≠ symbol_idx then .error .degStringMismatch
                    else .ok (e.cum_set_sizes.getD symbol_idx 0 + local_idx, deg_idx + 1, chars_counted)
          else
            let g := e.cum_set_sizes.getD symbol_idx 0
            let symLen := e.string_lengths.getD g 0
            if symbol_idx = start_symbol ∧ 0 < offset_in_symbol then
              if offset_in_symbol ≥ symLen then .error .offsetExceeds
              else .ok (g, deg_idx, chars_counted + min (symLen - offset_in_symbol) (plen - chars_counted))
            else .ok (g, deg_idx, chars_counted + min symLen (plen - chars_counted))
        match step with
        | .error .offsetExceeds =>
            -- the C++ returns the empty set on the offset overrun (eds.cpp:1351-1354)
            .ok ∅
        | .error err => .error err
        | .ok (g, deg_idx1, chars1) =>
            if e.sources.length ≤ g then .error .sourcesIdxOut
            else
              let cur := e.sources.getD g ∅
              let inter1 := if first then cur else interSrc inter cur
              if inter1 = ∅ then .ok ∅
              else
                let chars2 :=
                  if degSym then chars1 + min (e.string_lengths.getD g 0) (plen - chars1)
                  else chars1
                pathInterGo e ds start_symbol offset_in_symbol plen fuel
                  (symbol_idx + 1) deg_idx1 chars2 false inter1
      else .ok inter

/-- `EDS::calculate_path_intersection`: returns the universal set when no
sources are loaded (eds.cpp:1304-1307), otherwise runs the loop. -/
def calculate_path_intersection (e : EDS) (start_symbol offset_in_symbol : Nat)
    (ds : List Int) (plen : Nat) : Except Err (Finset Nat) :=
  if ¬ e.has_sources then .ok {0}
  else pathInterGo e ds start_symbol offset_in_symbol plen e.n start_symbol 0 0 true ∅

/-- `EDS::check_position` (eds.cpp:953-1048), FULL storage mode.  The empty-EDS
and empty-pattern fast paths come first; every failure of
`find_symbol_at_common_position` is caught and treated as "no match" (the C++
catches `std::out_of_range`, the class of all its throws, at eds.cpp:970-975);
the stderr warning about extra degenerate strings has no effect on the result
and is not modelled; path-intersection and reconstruction errors propagate. -/
def check_position (e : EDS) (common_pos : Nat) (degenerate_strings : List Int)
    (pattern : List Char) : Except Err Bool :=
  if e.is_empty ∨ e.n = 0 then .ok false
  else if pattern = [] then .ok true
  else
    match find_symbol_at_common_position e common_pos with
    | .error _ => .ok false
    | .ok (start_symbol, offset_in_symbol) =>
        let finish : Except Err Bool :=
          match reconstruct_from_memory e start_symbol offset_in_symbol
              degenerate_strings pattern.length with
          | .error err => .error err
          | .ok recon =>
              .ok (if recon.length < pattern.length then false else recon = pattern)
        if e.has_sources then
          match calculate_path_intersection e start_symbol offset_in_symbol
              degenerate_strings pattern.length with
          | .error err => .error err
          | .ok inter => if inter = ∅ then .ok false else finish
        else finish

/-- `is_leds` (eds_transforms.cpp:439-468): `L = 0` is trivially true; an
internal common block shorter than `L` or two adjacent degenerate symbols
violate the property. -/
def is_leds (e : EDS) (L : Nat) : Bool :=
  if L = 0 then true
  else
    (List.range e.n).all (fun i =>
      (if ¬ e.is_degenerate.getD i false ∧ 0 < i ∧ i < e.n - 1 then
        ¬ (e.string_lengths.getD (e.cum_set_sizes.getD i 0) 0 < L)
      else true)
      ∧
      (if i + 1 < e.n then
        ¬ (e.is_degenerate.getD i false ∧ e.is_degenerate.getD (i + 1) false)
      else true))

/-- The admissibility test of `select_independent_merge_pairs`
(eds_transforms.cpp:63-103) for the pair `(i, i+1)`: one of the two positions
is an internal common block shorter than `L`, or both are degenerate. -/
def shouldMergeAt (e : EDS) (L : Nat) (i : Nat) : Bool :=
  (¬ e.is_degenerate.getD i false ∧ 0 < i ∧ i < e.n - 1 ∧
    e.string_lengths.getD (e.cum_set_sizes.getD i 0) 0 < L)
  ∨ (¬ e.is_degenerate.getD (i + 1) false ∧ i + 1 < e.n - 1 ∧
    e.string_lengths.getD (e.cum_set_sizes.getD (i + 1) 0) 0 < L)
  ∨ (e.is_degenerate.getD i false ∧ e.is_degenerate.getD (i + 1) false)

/-- The greedy left-to-right scan of `select_independent_merge_pairs`.  The
C++ marks both members of a selected pair in a `used` bitmap and skips any `i`
with `used[i] || used[i+1]`; since only the immediately preceding selected
pair can mark `i`, that is the same as advancing by two after a selection and
by one otherwise, which is how the scan is written here. -/
def selectPairsGo (e : EDS) (L : Nat) : Nat → Nat → List (Nat × Nat)
  | 0, _ => []
  | fuel + 1, i =>
      if i + 1 < e.n then
        if shouldMergeAt e L i then (i, i + 1) :: selectPairsGo e L fuel (i + 2)
        else selectPairsGo e L fuel (i + 1)
      else []

/-- `select_independent_merge_pairs` (eds_transforms.cpp:46-107). -/
def select_independent_merge_pairs (e : EDS) (L : Nat) : List (Nat × Nat) :=
  if e.n < 2 then [] else selectPairsGo e L e.n 0

/-- `EDS::read_symbol` (eds.cpp:930-935): bounds check, then the FULL-mode
lookup. -/
def read_symbol (e : EDS) (pos : Nat) : Except Err (List (List Char)) :=
  if pos ≥ e.n then .error .readPosOutOfRange
  else .ok (e.sets.getD pos [])

/-- The per-pair result collected by `merge_multiple_pairs`
(eds_transforms.cpp:28-33). -/
structure MergeResult where
  original_pos1 : Nat
  original_pos2 : Nat
  merged_set : List (List Char)
  merged_sources : List (Finset Nat)
deriving DecidableEq

/-- The sequential branch of `merge_multiple_pairs` (eds_transforms.cpp:127-148):
merge each pair on the original instance, read the merged symbol at `pos1`, and
slice its source sets out of the merged instance's flat source array. -/
def merge_multiple_pairs (e : EDS) : List (Nat × Nat) → Except Err (List MergeResult)
  | [] => .ok []
  | p :: rest =>
      match e.merge_adjacent p.1 p.2 with
      | .error err => .error err
      | .ok merged =>
          match read_symbol merged p.1 with
          | .error err => .error err
          | .ok mset =>
              let msrc :=
                if e.has_sources then
                  (List.range (merged.symbol_sizes.getD p.1 0)).map
                    (fun j => merged.sources.getD (merged.cum_set_sizes.getD p.1 0 + j) ∅)
                else []
              match merge_multiple_pairs e rest with
              | .error err => .error err
              | .ok rs =>
                  .ok ({ original_pos1 := p.1, original_pos2 := p.2,
                         merged_set := mset, merged_sources := msrc } :: rs)

/-- Decimal rendering of a path id as `operator<<` writes it. -/
def natDecimal (n : Nat) : List Char := Nat.toDigits 10 n

/-- One source set in sEDS text form: sorted ids (the `std::set` iteration
order), comma separated, in braces. -/
def renderSourceSet (s : Finset Nat) : List Char :=
  SET_OPEN :: List.intercalate [SET_SEPARATOR] ((s.sort (· ≤ ·)).map natDecimal)
  ++ [SET_CLOSE]

/-- The symbols written by `reconstruct_eds` (eds_transforms.cpp:207-296): walk
the original positions; skip a consumed `pos2`; write the merged symbol at a
`pos1`; copy the original symbol otherwise.  Also the per-symbol source groups
for the sources stream. -/
def reconstructPieces (original : EDS) (results : List MergeResult) :
    List (List (List Char) × List (Finset Nat)) :=
  (List.range original.n).filterMap (fun pos =>
    if results.any (fun r => r.original_pos2 = pos) then none
    else
      match results.find? (fun r => r.original_pos1 = pos) with
      | some r => some (r.merged_set, r.merged_sources)
      | none =>
          some (original.sets.getD pos [],
            (List.range (original.symbol_sizes.getD pos 0)).map
              (fun j => original.sources.getD (original.cum_set_sizes.getD pos 0 + j) ∅)))

/-- `reconstruct_eds` (eds_transforms.cpp:207-296): write every kept symbol in
bracketed form (and its source groups when sources are loaded), then construct
a fresh `EDS` from the streams, exactly as `EDS(eds_str, sources_str)` /
`EDS(eds_str)` do. -/
def reconstruct_eds (original : EDS) (results : List MergeResult) : Except Err EDS :=
  let pieces := reconstructPieces original results
  let edsStr := (pieces.map (fun p => renderSymbol p.1)).flatten
  let srcStr := (pieces.map (fun p => (p.2.map renderSourceSet).flatten)).flatten
  if original.has_sources then EDS.parseWithSources edsStr srcStr
  else EDS.parse edsStr

/-- The iteration bound `MAX_ITERATIONS` of the drivers
(eds_transforms.cpp:335,401). -/
def MAX_ITERATIONS : Nat := 10000

/-- The convergence loop of `eds_to_leds_linear` (eds_transforms.cpp:337-363),
written with the remaining iteration budget as fuel: break on the predicate,
break on an empty pair selection, otherwise merge a wave and recurse; the
exhausted budget is the `no-convergence` error thrown after the loop. -/
def driverGo (L : Nat) : Nat → EDS → Except Err EDS
  | 0, _ => .error .noConvergence
  | fuel + 1, e =>
      if is_leds e L then .ok e
      else
        let pairs := select_independent_merge_pairs e L
        if pairs = [] then .ok e
        else
          match merge_multiple_pairs e pairs with
          | .error err => .error err
          | .ok results =>
              match reconstruct_eds e results with
              | .error err => .error err
              | .ok e2 => driverGo L fuel e2

/-- `eds_to_leds_linear` (eds_transforms.cpp:313-373) up to the final output
serialization: reject `L = 0`, load the EDS (with sources when a phasing
stream is given), and iterate. -/
def eds_to_leds_linear (edsText : List Char) (sedsText : Option (List Char))
    (L : Nat) : Except Err EDS :=
  if L = 0 then .error .contextLengthZero
  else
    match
      (match sedsText with
        | some s => EDS.parseWithSources edsText s
        | none => EDS.parse edsText)
    with
    | .error err => .error err
    | .ok e => driverGo L MAX_ITERATIONS e

/-- The input-loading step of `eds_to_leds_linear` (eds_transforms.cpp:325-333):
with a phasing stream, the two-stream constructor; otherwise the plain parse. -/
def loadInput (edsText : List Char) (sedsText : Option (List Char)) : Except Err EDS :=
  match sedsText with
  | some s => EDS.parseWithSources edsText s
  | none => EDS.parse edsText

/-- Claim-side quantity for C6: the summed lengths of the non-degenerate
symbols (each such symbol's length is the length of its single alternative). -/
def nondegLenSum (sets : List (List (List Char))) : Nat :=
  ((sets.filter (fun s => s.length ≤ 1)).map (fun s => (s.headD []).length)).sum

/-- Claim-side quantity for C1/C5: the number of ordered pairs `(a, b)` of
alternatives of symbols `pos1` and `pos2` (product order) whose source
intersection is non-empty. -/
def keptPairCount (e : EDS) (pos1 pos2 : Nat) : Nat :=
  ((List.range (e.sets.getD pos1 []).length).flatMap (fun i =>
    (List.range (e.sets.getD pos2 []).length).map (fun j => (i, j)))).countP
    (fun p =>
      interSrc (e.sources.getD (e.cum_set_sizes.getD pos1 0 + p.1) ∅)
        (e.sources.getD (e.cum_set_sizes.getD pos2 0 + p.2) ∅) ≠ ∅)

/-- Claim-side list for C5: the intersections carried by the kept pairs, in
product order. -/
def keptPairSources (e : EDS) (pos1 pos2 : Nat) : List (Finset Nat) :=
  (List.range (e.symbol_sizes.getD pos1 0)).flatMap (fun i =>
    (List.range (e.symbol_sizes.getD pos2 0)).filterMap (fun j =>
      let inter := interSrc (e.sources.getD (e.cum_set_sizes.getD pos1 0 + i) ∅)
        (e.sources.getD (e.cum_set_sizes.getD pos2 0 + j) ∅)
      if inter = ∅ then none else some inter))

/-- The running example of the C++ test suite: `\x7bACGT\x7d\x7bA,ACA\x7d\x7bCGT\x7d\x7bT,TG\x7d`. -/
def sampleText1 : List Char :=
  ("\x7bACGT\x7d\x7bA,ACA\x7d\x7bCGT\x7d\x7bT,TG\x7d").toList

/-- The parsed running example (used by concrete witnesses). -/
def sampleEDS1 : EDS :=
  match EDS.parse sampleText1 with
  | .ok e => e
  | .error _ => emptyEDS

/-- The two-character input `\x7b\x7d`. -/
def emptyBracesText : List Char := [SET_OPEN, SET_CLOSE]

/-- What `EDS.parse` produces for `\x7b\x7d`: one symbol with a single empty
alternative. -/
def emptyAltEDS : EDS :=
  ⟨false, 1, 0, 1, [0], [1], [0], [0], [false], [0, 0], [0, 0], [[[]]], false, []⟩

/-- The result of merging symbols 0 and 1 of the running example. -/
def sampleMerged01 : EDS :=
  match sampleEDS1.merge_adjacent 0 1 with
  | .ok r => r
  | .error _ => emptyEDS

/-- The sourced example of the spec (scenario 3): `\x7bA,B\x7d\x7bC\x7d` with
sources `\x7b0\x7d\x7b2\x7d\x7b1\x7d`. -/
def sampleEDS2 : EDS :=
  match EDS.parseWithSources (("\x7bA,B\x7d\x7bC\x7d").toList)
      (("\x7b0\x7d\x7b2\x7d\x7b1\x7d").toList) with
  | .ok e => e
  | .error _ => emptyEDS

/-- The linear merge of the sourced example. -/
def sampleMerged2 : EDS :=
  match sampleEDS2.merge_adjacent 0 1 with
  | .ok r => r
  | .error _ => emptyEDS

/-- An input/depth pair on which `normalizeAux` is the identity: every
character that is not a brace sits at positive bracket depth, so nothing is
ever accumulated into the bare-run buffer. -/
def NoBare : List Char → Int → Prop
  | [], _ => True
  | c :: rest, depth =>
      (c = SET_OPEN → NoBare rest (depth + 1)) ∧
      (c = SET_CLOSE → NoBare rest (depth - 1)) ∧
      (c ≠ SET_OPEN → c ≠ SET_CLOSE → 0 < depth ∧ NoBare rest depth)

/-- The single-symbol instance parsed from `\x7bA\x7d` (used by concrete
witnesses of the driver claims). -/
def edsA : EDS :=
  match EDS.parse (("\x7bA\x7d").toList) with
  | .ok e => e
  | .error _ => emptyEDS

/-- The instance parsed from `\x7bA\x7d\x7bB\x7d`: two adjacent non-degenerate
symbols (the compact round-trip counterexample). -/
def cexC3 : EDS :=
  match EDS.parse (("\x7bA\x7d\x7bB\x7d").toList) with
  | .ok e => e
  | .error _ => emptyEDS

/-- What parsing the compact serialization of `cexC3` yields. -/
def cexC3r : EDS :=
  match EDS.parse (save_chars cexC3 true) with
  | .ok e => e
  | .error _ => emptyEDS

/-- The instance parsed from `\x7bA,C\x7d\x7bG\x7d\x7bT,A\x7d`: no two adjacent
non-degenerate symbols (the compact round-trip witness). -/
def c3E : EDS :=
  match EDS.parse (("\x7bA,C\x7d\x7bG\x7d\x7bT,A\x7d").toList) with
  | .ok e => e
  | .error _ => emptyEDS

-- ================================================================================
-- THEOREMS
-- ================================================================================

theorem sepNeClose : SET_SEPARATOR ≠ SET_CLOSE := by decide

theorem openNeClose : SET_OPEN ≠ SET_CLOSE := by decide

theorem openNeSep : SET_OPEN ≠ SET_SEPARATOR := by decide

theorem cumsOfList_cons (a : Nat) (l : List Nat) :
    cumsOfList (a :: l) = 0 :: (cumsOfList l).map (a + ·) := by
  simp [cumsOfList, List.range_succ_eq_map, List.map_map, Function.comp,
    List.take_succ_cons]

theorem scanAlts_alts_ne (l cur : List Char) : (scanAlts l cur).1 ≠ [] := by
  induction l generalizing cur with
  | nil => simp [scanAlts]
  | cons c rest ih =>
      by_cases h1 : c = SET_CLOSE
      · simp [scanAlts, h1]
      · by_cases h2 : c = SET_SEPARATOR
        · simp [scanAlts, h1, h2, sepNeClose]
        · simpa [scanAlts, h1, h2] using ih (cur ++ [c])

theorem scanAlts_chars (l : List Char) :
    ∀ cur, (∀ c ∈ cur, c ≠ SET_CLOSE ∧ c ≠ SET_SEPARATOR) →
    ∀ a ∈ (scanAlts l cur).1, ∀ c ∈ a,
      (c ∈ cur ∨ c ∈ l) ∧ c ≠ SET_CLOSE ∧ c ≠ SET_SEPARATOR := by
  induction l with
  | nil =>
      intro cur hcur a ha c hc
      simp [scanAlts] at ha
      subst ha
      exact ⟨Or.inl hc, hcur c hc⟩
  | cons x rest ih =>
      intro cur hcur a ha c hc
      by_cases h1 : x = SET_CLOSE
      · simp [scanAlts, h1] at ha
        subst ha
        exact ⟨Or.inl hc, hcur c hc⟩
      · by_cases h2 : x = SET_SEPARATOR
        · simp [scanAlts, h1, h2, sepNeClose] at ha
          rcases ha with ha | ha
          · subst ha
            exact ⟨Or.inl hc, hcur c hc⟩
          · have := ih [] (by simp) a ha c hc
            rcases this with ⟨hmem, hne⟩
            refine ⟨?_, hne⟩
            rcases hmem with hmem | hmem
            · simp at hmem
            · exact Or.inr (by simp [hmem])
        · simp only [scanAlts, if_neg h1, if_neg h2] at ha
          have hcur2 : ∀ d ∈ cur ++ [x], d ≠ SET_CLOSE ∧ d ≠ SET_SEPARATOR := by
            intro d hd
            rcases List.mem_append.mp hd with hd | hd
            · exact hcur d hd
            · simp at hd
              subst hd
              exact ⟨h1, h2⟩
          have := ih (cur ++ [x]) hcur2 a ha c hc
          rcases this with ⟨hmem, hne⟩
          refine ⟨?_, hne⟩
          rcases hmem with hmem | hmem
          · rcases List.mem_append.mp hmem with hd | hd
            · exact Or.inl hd
            · simp at hd
              subst hd
              simp
          · exact Or.inr (by simp [hmem])

theorem scanAlts_rem_mem (l : List Char) :
    ∀ cur c, c ∈ (scanAlts l cur).2 → c ∈ l := by
  induction l with
  | nil => intro cur c hc; simp [scanAlts] at hc
  | cons x rest ih =>
      intro cur c hc
      by_cases h1 : x = SET_CLOSE
      · simpa [scanAlts, h1] using hc
      · by_cases h2 : x = SET_SEPARATOR
        · simp only [scanAlts, if_neg h1, if_pos h2] at hc
          exact List.mem_cons_of_mem x (ih [] c hc)
        · simp only [scanAlts, if_neg h1, if_neg h2] at hc
          exact List.mem_cons_of_mem x (ih (cur ++ [x]) c hc)

theorem ExtendsB_cons {st st2 : Build} {pos : Nat} {alts : List (List Char)}
    {syms : List (List (List Char))}
    (h : ExtendsB (pushSymbol st pos alts) st2 syms) :
    ExtendsB st st2 (alts :: syms) := by
  obtain ⟨h1, h2, h3, h4, h5, h6, h7, h8, h9⟩ := h
  refine ⟨?_, ?_, ?_, ?_, ?_, ?_, ?_, ?_, ?_⟩
  · simp [h1, pushSymbol]
  · simp [h2, pushSymbol, sizesOf]
  · simp [h3, pushSymbol, lengthsOf, symLensOf]
  · simp [h4, pushSymbol, degOf]
  · simp only [h5, pushSymbol]
    have hsz : sizesOf (alts :: syms) = alts.length :: sizesOf syms := rfl
    rw [hsz, cumsOfList_cons]
    simp [List.map_map, Function.comp, List.append_assoc, Nat.add_assoc]
  · simp [h6, pushSymbol, sizesOf, Nat.add_assoc]
  · simp [h7, pushSymbol, lengthsOf, symLensOf, Nat.add_assoc]
  · simp [h8, pushSymbol, Nat.add_assoc, Nat.add_comm 1]
  · simp [h9, pushSymbol, Nat.add_assoc, Nat.add_comm 1]

theorem parseLoop_ok :
    ∀ (fuel : Nat) (input : List Char) (pos : Nat) (st st2 : Build),
      parseLoop fuel input pos st = .ok st2 →
      ∃ syms, ExtendsB st st2 syms ∧ SymsOk syms input
  | 0, _, _, _, _ => by intro h; simp [parseLoop] at h
  | _ + 1, [], _, st, st2 => by
      intro h
      simp only [parseLoop, Except.ok.injEq] at h
      subst h
      exact ⟨[], by simp [ExtendsB, sizesOf, lengthsOf, degOf, cumsOfList],
        by simp [SymsOk]⟩
  | fuel + 1, c :: rest, pos, st, st2 => by
      intro h
      simp only [parseLoop] at h
      split at h
      · exact absurd h (by simp)
      · split at h
        · exact absurd h (by simp)
        · rename_i hcopen c2 rest2 hr2
          split at h
          · exact absurd h (by simp)
          · split at h
            · exact absurd h (by simp)
            · obtain ⟨syms, hext, hok⟩ := parseLoop_ok fuel rest2 _ _ _ h
              refine ⟨(scanAlts rest []).1 :: syms, ExtendsB_cons hext, ?_⟩
              intro s hs
              rcases List.mem_cons.mp hs with hs | hs
              · subst hs
                refine ⟨scanAlts_alts_ne rest [], ?_⟩
                intro a ha ch hch
                have := scanAlts_chars rest [] (by simp) a ha ch hch
                rcases this with ⟨hmem, hne⟩
                refine ⟨?_, hne⟩
                rcases hmem with hmem | hmem
                · simp at hmem
                · exact List.mem_cons_of_mem c hmem
              · obtain ⟨hne, hrest⟩ := hok s hs
                refine ⟨hne, ?_⟩
                intro a ha ch hch
                obtain ⟨hmem, hne2⟩ := hrest a ha ch hch
                refine ⟨?_, hne2⟩
                have hch2 : ch ∈ (scanAlts rest []).2 := by
                  rw [hr2]; exact List.mem_cons_of_mem c2 hmem
                exact List.mem_cons_of_mem c (scanAlts_rem_mem rest [] ch hch2)

theorem interSrc_univ_left {s : Finset Nat} (h : 0 ∉ s) : interSrc univSrc s = s := by
  simp [interSrc, univSrc, h]

theorem interSrc_univ_right {s : Finset Nat} (h : 0 ∉ s) : interSrc s univSrc = s := by
  simp [interSrc, univSrc, h]

theorem interSrc_univ_univ : interSrc univSrc univSrc = univSrc := by
  simp [interSrc, univSrc]

theorem interSrc_nonuniv {s t : Finset Nat} (hs : 0 ∉ s) (ht : 0 ∉ t) :
    interSrc s t = s ∩ t := by
  simp [interSrc, hs, ht]

theorem not_mem_inter_of_left {s t : Finset Nat} (hs : 0 ∉ s) : 0 ∉ s ∩ t := by
  simp [Finset.mem_inter]; intro h; exact absurd h hs

theorem interSrc_comm {s t : Finset Nat} (hs : WFSrc s) (ht : WFSrc t) :
    interSrc s t = interSrc t s := by
  rcases hs with rfl | ⟨_, hs0⟩ <;> rcases ht with rfl | ⟨_, ht0⟩
  · rfl
  · rw [interSrc_univ_left ht0, interSrc_univ_right ht0]
  · rw [interSrc_univ_left hs0, interSrc_univ_right hs0]
  · rw [interSrc_nonuniv hs0 ht0, interSrc_nonuniv ht0 hs0, Finset.inter_comm]

theorem interSrc_assoc {s t v : Finset Nat} (hs : WFSrc s) (ht : WFSrc t) (hv : WFSrc v) :
    interSrc (interSrc s t) v = interSrc s (interSrc t v) := by
  rcases hs with rfl | ⟨_, hs0⟩ <;> rcases ht with rfl | ⟨_, ht0⟩ <;>
    rcases hv with rfl | ⟨_, hv0⟩
  · rfl
  · rw [interSrc_univ_univ, interSrc_univ_left hv0, interSrc_univ_left hv0]
  · rw [interSrc_univ_left ht0, interSrc_univ_right ht0, interSrc_univ_left ht0]
  · rw [interSrc_univ_left ht0, interSrc_nonuniv ht0 hv0,
      interSrc_univ_left (not_mem_inter_of_left ht0)]
  · rw [interSrc_univ_right hs0, interSrc_univ_univ, interSrc_univ_right hs0]
  · rw [interSrc_univ_right hs0, interSrc_univ_left hv0]
  · rw [interSrc_nonuniv hs0 ht0, interSrc_univ_right ht0,
      interSrc_univ_right (not_mem_inter_of_left hs0)]
    exact (interSrc_nonuniv hs0 ht0).symm
  · rw [interSrc_nonuniv hs0 ht0, interSrc_nonuniv ht0 hv0,
      interSrc_nonuniv (not_mem_inter_of_left hs0) hv0,
      interSrc_nonuniv hs0 (not_mem_inter_of_left ht0), Finset.inter_assoc]

/-- Claim C4: the source intersection operation satisfies `U ∩ S = S ∩ U = S`
for every well-formed explicit source set `S`, `U ∩ U = U`, and is associative
and commutative on any three well-formed source sets (each either exactly the
universal marker `\x7b0\x7d` or a non-empty set of positive ids), including
triples that contain the universal set in any position. -/
theorem claim_C4 (S : Finset Nat) (hSe : S ≠ ∅) (hS : 0 ∉ S)
    (T1 T2 T3 : Finset Nat) (h1 : WFSrc T1) (h2 : WFSrc T2) (h3 : WFSrc T3) :
    interSrc univSrc S = S ∧ interSrc S univSrc = S ∧
    interSrc univSrc univSrc = univSrc ∧
    interSrc T1 T2 = interSrc T2 T1 ∧
    interSrc (interSrc T1 T2) T3 = interSrc T1 (interSrc T2 T3) :=
  ⟨interSrc_univ_left hS, interSrc_univ_right hS, interSrc_univ_univ,
    interSrc_comm h1 h2, interSrc_assoc h1 h2 h3⟩

/-- Witness for C4 at `S = \x7b1,2\x7d` and the triple
`(\x7b0\x7d, \x7b1\x7d, \x7b2\x7d)`, which puts the universal set first and
makes both association orders empty. -/
theorem claim_C4_witness :
    interSrc univSrc {1, 2} = ({1, 2} : Finset Nat) ∧
    interSrc {1, 2} univSrc = ({1, 2} : Finset Nat) ∧
    interSrc univSrc univSrc = univSrc ∧
    interSrc univSrc {1} = interSrc {1} univSrc ∧
    interSrc (interSrc univSrc {1}) {2} = interSrc univSrc (interSrc {1} {2}) :=
  claim_C4 {1, 2} (by decide) (by decide) univSrc {1} {2}
    (Or.inl rfl) (Or.inr ⟨by decide, by decide⟩) (Or.inr ⟨by decide, by decide⟩)

/-- Claim C9: after `merge_adjacent(i, i+1)` is called (successfully or not),
the input instance is unchanged.  The `const` receiver is threaded explicitly
through `mergeAdjacentCall`; no statement of the method body writes to it. -/
theorem claim_C9 (e : EDS) (pos1 pos2 : Nat) :
    (mergeAdjacentCall e pos1 pos2).1 = e := rfl

theorem normalizeAux_chars :
    ∀ (input result cur : List Char) (depth : Int) (c : Char),
      c ∈ normalizeAux input result cur depth →
      c ∈ input ∨ c ∈ result ∨ c ∈ cur ∨ c = SET_OPEN ∨ c = SET_CLOSE := by
  intro input
  induction input with
  | nil =>
      intro result cur depth c hc
      simp only [normalizeAux] at hc
      split at hc
      · simp only [List.mem_append, List.mem_cons, List.mem_singleton] at hc
        tauto
      · tauto
  | cons x rest ih =>
      intro result cur depth c hc
      simp only [normalizeAux] at hc
      split at hc
      · rename_i hx
        have h := ih _ _ _ c hc
        rcases h with h | h | h | h | h
        · exact Or.inl (List.mem_cons_of_mem x h)
        · rcases List.mem_append.mp h with h | h
          · split at h
            · simp only [List.mem_append, List.mem_cons, List.mem_singleton] at h
              tauto
            · tauto
          · simp only [List.mem_singleton] at h
            exact Or.inr (Or.inr (Or.inr (Or.inl (h.trans hx))))
        · split at h
          · simp at h
          · tauto
        · tauto
        · tauto
      · split at hc
        · rename_i hx hclose
          have h := ih _ _ _ c hc
          rcases h with h | h | h | h | h
          · exact Or.inl (List.mem_cons_of_mem x h)
          · rcases List.mem_append.mp h with h | h
            · tauto
            · simp only [List.mem_singleton] at h
              exact Or.inr (Or.inr (Or.inr (Or.inr (h.trans hclose))))
          · tauto
          · tauto
          · tauto
        · split at hc
          · have h := ih _ _ _ c hc
            rcases h with h | h | h | h | h
            · exact Or.inl (List.mem_cons_of_mem x h)
            · rcases List.mem_append.mp h with h | h
              · tauto
              · simp only [List.mem_singleton] at h
                subst h
                exact Or.inl (List.mem_cons_self _ _)
            · tauto
            · tauto
            · tauto
          · have h := ih _ _ _ c hc
            rcases h with h | h | h | h | h
            · exact Or.inl (List.mem_cons_of_mem x h)
            · tauto
            · rcases List.mem_append.mp h with h | h
              · tauto
              · simp only [List.mem_singleton] at h
                subst h
                exact Or.inl (List.mem_cons_self _ _)
            · tauto
            · tauto

theorem parse_WF (t : List Char) (E : EDS) (h : EDS.parse t = .ok E) :
    WF E ∧ CleanSets E.sets := by
  simp only [EDS.parse] at h
  split at h
  · have hE : E = emptyEDS := by
      simpa using h.symm
    subst hE
    exact ⟨by decide, by intro s hs; simp [emptyEDS] at hs⟩
  · rename_i hne
    split at h
    · exact absurd h (by simp)
    · rename_i st heq
      split at h
      · have hE : E = emptyEDS := by simpa using h.symm
        subst hE
        exact ⟨by decide, by intro s hs; simp [emptyEDS] at hs⟩
      · rename_i hn0
        have hE : E = finalizeBuild st := by simpa using h.symm
        subst hE
        obtain ⟨syms, hext, hok⟩ := parseLoop_ok _ _ _ _ _ heq
        obtain ⟨h1, h2, h3, h4, h5, h6, h7, h8, h9⟩ := hext
        simp only [Build.empty] at h1 h2 h3 h4 h5 h6 h7 h8 h9
        simp only [List.nil_append, Nat.zero_add, List.length_nil] at h1 h2 h3 h4 h5 h6 h7 h8 h9
        have h5b : st.cum_set_sizes = cumsOfList (sizesOf syms) := by
          simpa using h5
        have hsyms : syms ≠ [] := by
          intro hnil
          exact hn0 (by rw [h8, hnil]; rfl)
        constructor
        · refine ⟨?_, ?_, ?_, ?_, ?_, ?_, ?_, ?_, ?_, ?_, ?_, ?_, ?_⟩
          · simp [finalizeBuild, hn0]
          · simp [finalizeBuild, h1, h8]
          · simp [finalizeBuild, h1, h6]
          · simp [finalizeBuild, h1, h7]
          · simp [finalizeBuild, h1, h2]
          · simp [finalizeBuild, h1, h3]
          · simp [finalizeBuild, h1, h5b]
          · simp [finalizeBuild, h1, h4]
          · simp [finalizeBuild, h1, h2, h3, h4, hsyms]
          · simp [finalizeBuild, h1, h2, h4, hsyms]
          · simp [finalizeBuild, h9, h8]
          · intro s hs
            simp only [finalizeBuild, h1] at hs
            exact (hok s hs).1
          · intro hsrc
            simp [finalizeBuild] at hsrc
        · intro s hs a ha c hc
          simp only [finalizeBuild, h1] at hs
          obtain ⟨hmem, hcl, hsep⟩ := (hok s hs).2 a ha c hc
          refine ⟨hcl, hsep, ?_⟩
          have := normalizeAux_chars _ _ _ _ c hmem
          rcases this with hin | hin | hin | hin | hin
          · have := List.mem_filter.mp hin
            simpa using this.2
          · simp at hin
          · simp at hin
          · subst hin; decide
          · exact absurd hin hcl

/-- Claim C10: with at least one symbol and an empty pattern, `check_position`
returns true for every common position and every degenerate-string vector; no
bounds check on the position is performed. -/
theorem claim_C10 (e : EDS) (p : Nat) (d : List Int)
    (h1 : e.is_empty = false) (h2 : e.n ≠ 0) :
    check_position e p d [] = .ok true := by
  simp [check_position, h1, h2]

/-- Witness for C10: the parsed running example, at the far-out-of-range
common position 999. -/
theorem claim_C10_witness : check_position sampleEDS1 999 [] [] = .ok true :=
  claim_C10 sampleEDS1 999 [] (by decide) (by decide)

/-- Every entry produced by the `cum_common_positions` fold is bounded by the
final entry. -/
theorem calcCcpGo_seed_le_last (pairs : List (Bool × Nat)) :
    ∀ (lens : List Nat) (sidx cum : Nat),
      cum ≤ (calcCcpGo pairs lens sidx cum).getLastD cum := by
  induction pairs with
  | nil => intro lens sidx cum; simp [calcCcpGo]
  | cons p rest ih =>
      intro lens sidx cum
      obtain ⟨deg, size⟩ := p
      simp only [calcCcpGo, List.getLastD_cons]
      have h1 : cum ≤ (if deg then cum else cum + lens.getD sidx 0) := by
        split <;> omega
      exact le_trans h1 (ih lens (sidx + size) _)

theorem calcCcpGo_mem_le_last (pairs : List (Bool × Nat)) :
    ∀ (lens : List Nat) (sidx cum x : Nat),
      x ∈ calcCcpGo pairs lens sidx cum →
      x ≤ (calcCcpGo pairs lens sidx cum).getLastD cum := by
  induction pairs with
  | nil => intro lens sidx cum x hx; simp [calcCcpGo] at hx
  | cons p rest ih =>
      intro lens sidx cum x hx
      obtain ⟨deg, size⟩ := p
      simp only [calcCcpGo, List.mem_cons, List.getLastD_cons] at hx ⊢
      rcases hx with hx | hx
      · rw [hx]
        exact calcCcpGo_seed_le_last rest lens (sidx + size) _
      · exact ih lens (sidx + size) _ x hx

theorem calcCcpGo_length (pairs : List (Bool × Nat)) :
    ∀ (lens : List Nat) (sidx cum : Nat),
      (calcCcpGo pairs lens sidx cum).length = pairs.length := by
  induction pairs with
  | nil => intro lens sidx cum; simp [calcCcpGo]
  | cons p rest ih =>
      intro lens sidx cum
      obtain ⟨deg, size⟩ := p
      simp [calcCcpGo, ih]

/-- When every entry of the list is at most `v`, `upperBound` answers the
length of the list. -/
theorem upperBound_eq_length {l : List Nat} {v : Nat} (h : ∀ x ∈ l, x ≤ v) :
    upperBound l v = l.length := by
  unfold upperBound
  have : l.findIdx? (fun x => decide (v < x)) = none := by
    rw [List.findIdx?_eq_none_iff]
    intro x hx
    simpa using Nat.not_lt.mpr (h x hx)
  rw [this]

/-- Claim C8 (amended): when the pattern is non-empty and the resolution of
the common position fails (in particular for a position at or past the total
number of common characters, where the C++ reads `is_degenerate[n]` out of
bounds), `check_position` catches the fault and returns false — it reports
"no match" rather than signalling the error; the error is signalled only by
the internal helper `find_symbol_at_common_position`. -/
theorem claim_C8 (e : EDS) (p : Nat) (d : List Int) (pat : List Char) :
    (∀ err : Err, pat ≠ [] → find_symbol_at_common_position e p = .error err →
      check_position e p d pat = .ok false) ∧
    (WF e → e.sets ≠ [] → (e.cum_common_positions).getLastD 0 ≤ p →
      find_symbol_at_common_position e p = .error .oobIndex) := by
  constructor
  · intro err hpat hfind
    by_cases h0 : e.is_empty = true ∨ e.n = 0
    · simp [check_position, h0]
    · simp [check_position, h0, hpat, hfind]
  · intro hwf hne hlast
    obtain ⟨-, hn, -, -, -, -, -, hdeg, hccp, -, -, -, -⟩ := hwf
    rw [if_neg hne] at hccp
    have hall : ∀ x ∈ e.cum_common_positions, x ≤ p := by
      intro x hx
      rw [hccp] at hx hlast
      simp only [calcCcp, List.mem_cons] at hx
      simp only [calcCcp, List.getLastD_cons] at hlast
      rcases hx with rfl | hx
      · exact Nat.zero_le p
      · exact le_trans (calcCcpGo_mem_le_last _ _ _ _ x hx) hlast
    have hub : upperBound e.cum_common_positions p = e.cum_common_positions.length := by
      exact upperBound_eq_length hall
    have hlen : e.cum_common_positions.length = e.sets.length + 1 := by
      rw [hccp]
      simp [calcCcp, calcCcpGo_length, degOf, sizesOf]
    have hnone : e.is_degenerate[e.sets.length]? = none := by
      apply List.getElem?_eq_none
      rw [hdeg]
      simp [degOf]
    simp [find_symbol_at_common_position, hub, hlen, hnone]

/-- Witness for C8 at the running example and position 100 (total common
characters: 7). -/
theorem claim_C8_witness :
    check_position sampleEDS1 100 [] ("ACG").toList = .ok false ∧
    find_symbol_at_common_position sampleEDS1 100 = .error .oobIndex := by
  refine ⟨(claim_C8 sampleEDS1 100 [] ("ACG").toList).1 .oobIndex (by decide) ?_, ?_⟩
  · exact (claim_C8 sampleEDS1 100 [] ("ACG").toList).2 (by decide) (by decide) (by decide)
  · exact (claim_C8 sampleEDS1 100 [] ("ACG").toList).2 (by decide) (by decide) (by decide)

/-- Counterexample for C8 as stated: for the running example and the
non-existent common position 100, `check_position` returns `ok false` — the
caller receives a "no match" result, not an error. -/
theorem claim_C8_counterexample :
    check_position sampleEDS1 100 [] ("ACG").toList = .ok false ∧
    find_symbol_at_common_position sampleEDS1 100 = .error .oobIndex := by
  constructor <;> decide

/-- Claim C7 (amended): the parser never produces a symbol with zero
alternatives — every symbol of a successful parse has at least one alternative
— but the input `\x7b\x7d` is not rejected: it parses successfully as one
symbol with a single empty alternative. -/
theorem claim_C7 :
    (∀ (t : List Char) (E : EDS), EDS.parse t = .ok E → ∀ s ∈ E.sets, s ≠ []) ∧
    EDS.parse emptyBracesText = .ok emptyAltEDS := by
  constructor
  · intro t E h s hs
    obtain ⟨hwf, _⟩ := parse_WF t E h
    obtain ⟨_, _, _, _, _, _, _, _, _, _, _, hne, _⟩ := hwf
    exact hne s hs
  · decide

/-- Witness for C7: the single symbol of the parsed `\x7b\x7d` is non-empty. -/
theorem claim_C7_witness : ([[]] : List (List Char)) ≠ [] :=
  claim_C7.1 emptyBracesText emptyAltEDS claim_C7.2 [[]] (by decide)

/-- Counterexample for C7 as stated: parsing `\x7b\x7d` does not fail; it
produces a symbol (with one empty alternative). -/
theorem claim_C7_counterexample : EDS.parse emptyBracesText = .ok emptyAltEDS := by
  decide

theorem rangeMap_getD {α : Type} (l : List α) (d : α) :
    ∀ {k : Nat}, k ≤ l.length →
      (List.range k).map (fun i => l.getD i d) = l.take k := by
  intro k
  induction k with
  | zero => intro _; simp
  | succ k ih =>
      intro h
      have hk : k < l.length := Nat.lt_of_succ_le h
      rw [List.range_succ, List.map_append, ih (Nat.le_of_lt hk)]
      rw [List.take_succ]
      simp [List.getElem?_eq_getElem hk, List.getD_eq_getElem l d hk]

theorem rangeMap_getD_all {α : Type} (l : List α) (d : α) :
    (List.range l.length).map (fun i => l.getD i d) = l := by
  rw [rangeMap_getD l d (Nat.le_refl _), List.take_length]

theorem getD_drop {α : Type} (l : List α) (d : α) (a t : Nat) :
    (l.drop a).getD t d = l.getD (a + t) d := by
  rw [List.getD_eq_getElem?_getD, List.getD_eq_getElem?_getD, List.getElem?_drop]

theorem rangeMap_getD_shift {α : Type} (l : List α) (d : α) (a : Nat) :
    (List.range (l.length - a)).map (fun t => l.getD (a + t) d) = l.drop a := by
  have h1 : ∀ t, l.getD (a + t) d = (l.drop a).getD t d := fun t => (getD_drop l d a t).symm
  calc (List.range (l.length - a)).map (fun t => l.getD (a + t) d)
      = (List.range ((l.drop a).length)).map (fun t => (l.drop a).getD t d) := by
        rw [List.length_drop]
        exact List.map_congr_left (fun t _ => h1 t)
    _ = l.drop a := rangeMap_getD_all _ d

theorem rangeMap_getD_comp {α β : Type} (l : List α) (d : α) (f : α → β) :
    (List.range l.length).map (fun i => f (l.getD i d)) = l.map f := by
  have : (List.range l.length).map (fun i => f (l.getD i d))
      = ((List.range l.length).map (fun i => l.getD i d)).map f := by
    rw [List.map_map]; rfl
  rw [this, rangeMap_getD_all]

theorem rangeMap_getD_comp_take {α β : Type} (l : List α) (d : α) (f : α → β)
    {k : Nat} (h : k ≤ l.length) :
    (List.range k).map (fun i => f (l.getD i d)) = (l.take k).map f := by
  have : (List.range k).map (fun i => f (l.getD i d))
      = ((List.range k).map (fun i => l.getD i d)).map f := by
    rw [List.map_map]; rfl
  rw [this, rangeMap_getD l d h]

theorem rangeMap_getD_comp_drop {α β : Type} (l : List α) (d : α) (f : α → β) (a : Nat) :
    (List.range (l.length - a)).map (fun t => f (l.getD (a + t) d)) = (l.drop a).map f := by
  have : (List.range (l.length - a)).map (fun t => f (l.getD (a + t) d))
      = ((List.range (l.length - a)).map (fun t => l.getD (a + t) d)).map f := by
    rw [List.map_map]; rfl
  rw [this, rangeMap_getD_shift]

theorem sizesOf_getD {sets : List (List (List Char))} {i : Nat} (h : i < sets.length) :
    (sizesOf sets).getD i 0 = (sets.getD i []).length := by
  have hlen : i < (sizesOf sets).length := by simpa [sizesOf] using h
  rw [List.getD_eq_getElem _ _ hlen, List.getD_eq_getElem _ _ h]
  simp [sizesOf]

theorem cumsOfList_getD {sizes : List Nat} {i : Nat} (h : i < sizes.length) :
    (cumsOfList sizes).getD i 0 = (sizes.take i).sum := by
  have hlen : i < (cumsOfList sizes).length := by simpa [cumsOfList] using h
  rw [List.getD_eq_getElem _ _ hlen]
  simp [cumsOfList]

theorem cumsOfList_length (sizes : List Nat) : (cumsOfList sizes).length = sizes.length := by
  simp [cumsOfList]

theorem lengthsOf_append (s1 s2 : List (List (List Char))) :
    lengthsOf (s1 ++ s2) = lengthsOf s1 ++ lengthsOf s2 := by
  simp [lengthsOf]

theorem map_length_symLensOf (sets : List (List (List Char))) :
    (sets.map symLensOf).map List.length = sizesOf sets := by
  simp [symLensOf, sizesOf, List.map_map, Function.comp]

theorem lengthsOf_drop_cums (sets : List (List (List Char))) :
    ∀ i, (lengthsOf sets).drop (((sizesOf sets).take i).sum) = lengthsOf (sets.drop i) := by
  intro i
  induction i generalizing sets with
  | zero => simp
  | succ i ih =>
      cases sets with
      | nil => simp [lengthsOf, sizesOf]
      | cons s rest =>
          have h1 : sizesOf (s :: rest) = s.length :: sizesOf rest := rfl
          have h2 : lengthsOf (s :: rest) = symLensOf s ++ lengthsOf rest := by
            simp [lengthsOf]
          rw [h1, h2, List.take_succ_cons, List.sum_cons, ← List.drop_drop]
          have h3 : (symLensOf s ++ lengthsOf rest).drop s.length = lengthsOf rest := by
            have : s.length = (symLensOf s).length := by simp [symLensOf]
            rw [this, List.drop_left]
          rw [h3, ih]
          simp

theorem lengthsOf_getD_point (sets : List (List (List Char))) {i j : Nat}
    (hi : i < sets.length) (hj : j < (sets.getD i []).length) :
    (lengthsOf sets).getD ((cumsOfList (sizesOf sets)).getD i 0 + j) 0 =
      ((sets.getD i []).getD j []).length := by
  have hsz : i < (sizesOf sets).length := by simpa [sizesOf] using hi
  rw [cumsOfList_getD hsz, ← getD_drop, lengthsOf_drop_cums]
  rw [List.getD_eq_getElem _ _ hi] at hj ⊢
  rw [List.drop_eq_getElem_cons hi]
  have h2 : lengthsOf (sets[i] :: sets.drop (i + 1)) =
      symLensOf sets[i] ++ lengthsOf (sets.drop (i + 1)) := by
    simp only [lengthsOf, List.flatMap_cons]
  rw [h2, List.getD_append _ _ _ _ (by simpa [symLensOf] using hj)]
  have hj2 : j < (symLensOf sets[i]).length := by simpa [symLensOf] using hj
  rw [List.getD_eq_getElem _ _ hj2, List.getD_eq_getElem _ _ hj]
  simp [symLensOf]

theorem symLens_slice_eq (sets : List (List (List Char))) {i : Nat} (hi : i < sets.length) :
    (List.range ((sizesOf sets).getD i 0)).map
      (fun j => (lengthsOf sets).getD ((cumsOfList (sizesOf sets)).getD i 0 + j) 0) =
    symLensOf (sets.getD i []) := by
  rw [sizesOf_getD hi]
  have hcong : ∀ j ∈ List.range (sets.getD i []).length,
      (lengthsOf sets).getD ((cumsOfList (sizesOf sets)).getD i 0 + j) 0 =
      ((sets.getD i []).getD j []).length := by
    intro j hj
    exact lengthsOf_getD_point sets hi (List.mem_range.mp hj)
  rw [List.map_congr_left hcong]
  exact rangeMap_getD_comp (sets.getD i []) [] List.length

theorem flatMap_congr {α β : Type} {l : List α} {f g : α → List β}
    (h : ∀ a ∈ l, f a = g a) : l.flatMap f = l.flatMap g := by
  rw [List.flatMap_def, List.flatMap_def, List.map_congr_left h]

theorem sum_map_const {α : Type} (l : List α) (c : Nat) :
    (l.map (fun _ => c)).sum = l.length * c := by
  induction l with
  | nil => simp
  | cons a l ih => simp [ih, Nat.succ_mul, Nat.add_comm]

theorem rangeFlatMap_getD {α β : Type} (l : List α) (d : α) (F : α → List β) :
    (List.range l.length).flatMap (fun i => F (l.getD i d)) = l.flatMap F := by
  conv_rhs => rw [← rangeMap_getD_all l d]
  rw [List.flatMap_map]

theorem filterMap_ite_length {α β γ : Type} (l : List α) (c : α → Prop)
    [DecidablePred c] (f : α → β) (g : α → γ) :
    (l.filterMap (fun x => if c x then none else some (f x))).length =
    (l.filterMap (fun x => if c x then none else some (g x))).length := by
  induction l with
  | nil => rfl
  | cons a l ih =>
      by_cases h : c a <;> simp [h, ih]

theorem filterMap_congr {α β : Type} {l : List α} {f g : α → Option β}
    (h : ∀ a ∈ l, f a = g a) : l.filterMap f = l.filterMap g := by
  induction l with
  | nil => rfl
  | cons a l ih =>
      simp only [List.filterMap_cons, h a (List.mem_cons_self a l)]
      rw [ih (fun x hx => h x (List.mem_cons_of_mem a hx))]

theorem getD_mem {α : Type} {l : List α} {i : Nat} (d : α) (h : i < l.length) :
    l.getD i d ∈ l := by
  rw [List.getD_eq_getElem _ _ h]
  exact List.getElem_mem h

theorem mergedSetOf_length (e : EDS) (pos1 pos2 : Nat) (hwf : WF e)
    (h1 : pos1 < e.sets.length) (h2 : pos2 < e.sets.length) :
    (mergedSetOf e pos1 pos2).length = mergedSizeOf e pos1 pos2 := by
  obtain ⟨-, -, -, -, hsz, -, -, -, -, -, -, -, -⟩ := hwf
  by_cases hs : e.has_sources
  · simp only [mergedSetOf, mergedSizeOf, linPairsOf, hs, if_pos]
    rw [hsz, sizesOf_getD h1, sizesOf_getD h2]
    simp only [List.length_flatMap, List.map_map]
    congr 1
    apply List.map_congr_left
    intro i _
    exact filterMap_ite_length _ _ _ _
  · simp only [mergedSetOf, mergedSizeOf, hs, if_neg, Bool.false_eq_true, if_false]
    rw [hsz, sizesOf_getD h1, sizesOf_getD h2]
    rw [List.length_flatMap]
    have : (List.map (List.length ∘ fun a => (e.sets.getD pos2 []).map (fun b => a ++ b))
        (e.sets.getD pos1 [])).sum
        = ((e.sets.getD pos1 []).map (fun _ => (e.sets.getD pos2 []).length)).sum := by
      congr 1
      apply List.map_congr_left
      intro a _
      simp [Function.comp]
    rw [this, sum_map_const]

theorem mergedLens_eq (e : EDS) (pos1 pos2 : Nat) (hwf : WF e)
    (h1 : pos1 < e.sets.length) (h2 : pos2 < e.sets.length) :
    (if e.has_sources then (linPairsOf e pos1 pos2).map Prod.snd
     else (List.range (e.symbol_sizes.getD pos1 0)).flatMap (fun i =>
        (List.range (e.symbol_sizes.getD pos2 0)).map (fun j =>
          e.string_lengths.getD (e.cum_set_sizes.getD pos1 0 + i) 0 +
          e.string_lengths.getD (e.cum_set_sizes.getD pos2 0 + j) 0)))
    = symLensOf (mergedSetOf e pos1 pos2) := by
  obtain ⟨-, -, -, -, hsz, hlen, hcums, -, -, -, -, -, -⟩ := hwf
  have hpoint1 : ∀ i, i < (e.sets.getD pos1 []).length →
      e.string_lengths.getD (e.cum_set_sizes.getD pos1 0 + i) 0 =
      ((e.sets.getD pos1 []).getD i []).length := by
    intro i hi
    rw [hlen, hcums]
    exact lengthsOf_getD_point e.sets h1 hi
  have hpoint2 : ∀ j, j < (e.sets.getD pos2 []).length →
      e.string_lengths.getD (e.cum_set_sizes.getD pos2 0 + j) 0 =
      ((e.sets.getD pos2 []).getD j []).length := by
    intro j hj
    rw [hlen, hcums]
    exact lengthsOf_getD_point e.sets h2 hj
  by_cases hs : e.has_sources
  · simp only [hs, if_pos, mergedSetOf, linPairsOf, symLensOf]
    rw [hsz, sizesOf_getD h1, sizesOf_getD h2]
    rw [List.map_flatMap, List.map_flatMap]
    apply flatMap_congr
    intro i hi
    rw [List.map_filterMap, List.map_filterMap]
    apply filterMap_congr
    intro j hj
    have hi2 := List.mem_range.mp hi
    have hj2 := List.mem_range.mp hj
    by_cases hc : interSrc (e.sources.getD (e.cum_set_sizes.getD pos1 0 + i) ∅)
        (e.sources.getD (e.cum_set_sizes.getD pos2 0 + j) ∅) = ∅
    · rw [if_pos hc, if_pos hc]
      rfl
    · rw [if_neg hc, if_neg hc]
      show some _ = some _
      rw [hpoint1 i hi2, hpoint2 j hj2]
      simp
  · simp only [hs, Bool.false_eq_true, if_false, mergedSetOf, symLensOf]
    rw [hsz, sizesOf_getD h1, sizesOf_getD h2]
    rw [List.map_flatMap]
    have hstep1 : (List.range (e.sets.getD pos1 []).length).flatMap (fun i =>
        (List.range (e.sets.getD pos2 []).length).map (fun j =>
          e.string_lengths.getD (e.cum_set_sizes.getD pos1 0 + i) 0 +
          e.string_lengths.getD (e.cum_set_sizes.getD pos2 0 + j) 0)) =
        (List.range (e.sets.getD pos1 []).length).flatMap (fun i =>
          (e.sets.getD pos2 []).map (fun b =>
            ((e.sets.getD pos1 []).getD i []).length + b.length)) := by
      apply flatMap_congr
      intro i hi
      have hi2 := List.mem_range.mp hi
      have : ∀ j ∈ List.range (e.sets.getD pos2 []).length,
          e.string_lengths.getD (e.cum_set_sizes.getD pos1 0 + i) 0 +
          e.string_lengths.getD (e.cum_set_sizes.getD pos2 0 + j) 0 =
          ((e.sets.getD pos1 []).getD i []).length +
          ((e.sets.getD pos2 []).getD j []).length := by
        intro j hj
        rw [hpoint1 i hi2, hpoint2 j (List.mem_range.mp hj)]
      rw [List.map_congr_left this]
      exact rangeMap_getD_comp (e.sets.getD pos2 []) []
        (fun b => ((e.sets.getD pos1 []).getD i []).length + b.length)
    rw [hstep1]
    rw [rangeFlatMap_getD (e.sets.getD pos1 []) []
      (fun a => (e.sets.getD pos2 []).map (fun b => a.length + b.length))]
    apply flatMap_congr
    intro a _
    rw [List.map_map]
    apply List.map_congr_left
    intro b _
    simp [Function.comp]

theorem sizesOf_take (sets : List (List (List Char))) (k : Nat) :
    sizesOf (sets.take k) = (sizesOf sets).take k := by
  simp [sizesOf, List.map_take]

theorem sizesOf_drop (sets : List (List (List Char))) (k : Nat) :
    sizesOf (sets.drop k) = (sizesOf sets).drop k := by
  simp [sizesOf, List.map_drop]

theorem degOf_take (sets : List (List (List Char))) (k : Nat) :
    degOf (sets.take k) = (degOf sets).take k := by
  simp [degOf, List.map_take]

theorem degOf_drop (sets : List (List (List Char))) (k : Nat) :
    degOf (sets.drop k) = (degOf sets).drop k := by
  simp [degOf, List.map_drop]

theorem sizesOf_append (s1 s2 : List (List (List Char))) :
    sizesOf (s1 ++ s2) = sizesOf s1 ++ sizesOf s2 := by
  simp [sizesOf]

theorem degOf_append (s1 s2 : List (List (List Char))) :
    degOf (s1 ++ s2) = degOf s1 ++ degOf s2 := by
  simp [degOf]

theorem lengthsOf_prefix_eq (e : EDS) (hsz : e.symbol_sizes = sizesOf e.sets)
    (hlen : e.string_lengths = lengthsOf e.sets)
    (hcums : e.cum_set_sizes = cumsOfList (sizesOf e.sets))
    {k : Nat} (hk : k ≤ e.sets.length) :
    (List.range k).flatMap (fun i =>
      (List.range (e.symbol_sizes.getD i 0)).map (fun j =>
        e.string_lengths.getD (e.cum_set_sizes.getD i 0 + j) 0)) =
    lengthsOf (e.sets.take k) := by
  have hcong : ∀ i ∈ List.range k,
      (List.range (e.symbol_sizes.getD i 0)).map (fun j =>
        e.string_lengths.getD (e.cum_set_sizes.getD i 0 + j) 0) =
      symLensOf (e.sets.getD i []) := by
    intro i hi
    rw [hsz, hlen, hcums]
    exact symLens_slice_eq e.sets (Nat.lt_of_lt_of_le (List.mem_range.mp hi) hk)
  rw [flatMap_congr hcong, List.flatMap_def,
    rangeMap_getD_comp_take e.sets [] symLensOf hk, ← List.flatMap_def, lengthsOf]

theorem lengthsOf_suffix_eq (e : EDS) (hsz : e.symbol_sizes = sizesOf e.sets)
    (hlen : e.string_lengths = lengthsOf e.sets)
    (hcums : e.cum_set_sizes = cumsOfList (sizesOf e.sets)) (a : Nat) :
    (List.range (e.sets.length - a)).flatMap (fun t =>
      (List.range (e.symbol_sizes.getD (a + t) 0)).map (fun j =>
        e.string_lengths.getD (e.cum_set_sizes.getD (a + t) 0 + j) 0)) =
    lengthsOf (e.sets.drop a) := by
  have hcong : ∀ t ∈ List.range (e.sets.length - a),
      (List.range (e.symbol_sizes.getD (a + t) 0)).map (fun j =>
        e.string_lengths.getD (e.cum_set_sizes.getD (a + t) 0 + j) 0) =
      symLensOf (e.sets.getD (a + t) []) := by
    intro t ht
    rw [hsz, hlen, hcums]
    exact symLens_slice_eq e.sets (by
      have := List.mem_range.mp ht
      omega)
  rw [flatMap_congr hcong, List.flatMap_def,
    rangeMap_getD_comp_drop e.sets [] symLensOf a, ← List.flatMap_def, lengthsOf]

theorem mergedSetOf_mem (e : EDS) (pos1 pos2 : Nat) :
    ∀ x ∈ mergedSetOf e pos1 pos2,
      ∃ a ∈ e.sets.getD pos1 [], ∃ b ∈ e.sets.getD pos2 [], x = a ++ b := by
  intro x hx
  unfold mergedSetOf at hx
  split at hx
  · obtain ⟨i, hi, hx⟩ := List.mem_flatMap.mp hx
    obtain ⟨j, hj, hx⟩ := List.mem_filterMap.mp hx
    have hx2 : (if interSrc (e.sources.getD (e.cum_set_sizes.getD pos1 0 + i) ∅)
        (e.sources.getD (e.cum_set_sizes.getD pos2 0 + j) ∅) = ∅ then none
      else some ((e.sets.getD pos1 []).getD i [] ++ (e.sets.getD pos2 []).getD j [])) =
        some x := hx
    split at hx2
    · exact absurd hx2 (by simp)
    · refine ⟨(e.sets.getD pos1 []).getD i [], getD_mem [] (List.mem_range.mp hi),
        (e.sets.getD pos2 []).getD j [], getD_mem [] (List.mem_range.mp hj), ?_⟩
      simpa using hx2.symm
  · obtain ⟨a, ha, hx⟩ := List.mem_flatMap.mp hx
    obtain ⟨b, hb, hx⟩ := List.mem_map.mp hx
    exact ⟨a, ha, b, hb, hx.symm⟩

theorem linPairs_fst_ne (e : EDS) (pos1 pos2 : Nat) :
    ∀ s ∈ (linPairsOf e pos1 pos2).map Prod.fst, s ≠ ∅ := by
  intro s hs
  obtain ⟨p, hp, hps⟩ := List.mem_map.mp hs
  unfold linPairsOf at hp
  obtain ⟨i, _, hp⟩ := List.mem_flatMap.mp hp
  obtain ⟨j, _, hp⟩ := List.mem_filterMap.mp hp
  have hp2 : (if interSrc (e.sources.getD (e.cum_set_sizes.getD pos1 0 + i) ∅)
      (e.sources.getD (e.cum_set_sizes.getD pos2 0 + j) ∅) = ∅ then none
    else some (interSrc (e.sources.getD (e.cum_set_sizes.getD pos1 0 + i) ∅)
        (e.sources.getD (e.cum_set_sizes.getD pos2 0 + j) ∅),
      e.string_lengths.getD (e.cum_set_sizes.getD pos1 0 + i) 0 +
      e.string_lengths.getD (e.cum_set_sizes.getD pos2 0 + j) 0)) = some p := hp
  split at hp2
  · exact absurd hp2 (by simp)
  · rename_i hcond
    have hfst : p.1 = interSrc (e.sources.getD (e.cum_set_sizes.getD pos1 0 + i) ∅)
        (e.sources.getD (e.cum_set_sizes.getD pos2 0 + j) ∅) := by
      have h3 := hp2
      injection h3 with h4
      rw [← h4]
    rw [← hps, hfst]
    exact hcond

theorem merge_WF (e : EDS) (pos1 : Nat) (r : EDS) (hwf : WF e)
    (hp : pos1 + 1 < e.n)
    (h : e.merge_adjacent pos1 (pos1 + 1) = .ok r) :
    WF r ∧
    r.sets = e.sets.take pos1 ++ [mergedSetOf e pos1 (pos1 + 1)]
      ++ e.sets.drop (pos1 + 1 + 1) ∧
    r.n = e.n - 1 ∧
    (CleanSets e.sets → CleanSets r.sets) := by
  have hwf2 := hwf
  obtain ⟨hie, hn, hm, hN, hsz, hlen, hcums, hdeg, hccp, hcdc, hbase, hne, hsrc⟩ := hwf2
  have hp2 : pos1 + 1 < e.sets.length := hn ▸ hp
  have hp1 : pos1 < e.sets.length := Nat.lt_of_succ_lt hp2
  have hszlen : (sizesOf e.sets).length = e.sets.length := by simp [sizesOf]
  have hdeglen : (degOf e.sets).length = e.sets.length := by simp [degOf]
  -- invert the guards of merge_adjacent
  unfold EDS.merge_adjacent at h
  rw [if_neg (by simp)] at h
  rw [if_neg (by omega)] at h
  split at h
  · exact absurd h (by simp)
  · rename_i hguard
    have hr : r = mergeBuild e pos1 (pos1 + 1) := by
      have h2 := h
      injection h2 with h3
      exact h3.symm
    subst hr
    -- the merged symbol
    have hMsize : (mergedSetOf e pos1 (pos1 + 1)).length = mergedSizeOf e pos1 (pos1 + 1) :=
      mergedSetOf_length e pos1 (pos1 + 1) hwf hp1 hp2
    have hMlens := mergedLens_eq e pos1 (pos1 + 1) hwf hp1 hp2
    have hMne : mergedSetOf e pos1 (pos1 + 1) ≠ [] := by
      intro hnil
      have hzero : mergedSizeOf e pos1 (pos1 + 1) = 0 := by
        rw [← hMsize, hnil]
        rfl
      by_cases hs : e.has_sources
      · exact hguard ⟨hs, hzero⟩
      · have h1 : (e.sets.getD pos1 []).length ≠ 0 := by
          intro h0
          exact hne _ (getD_mem [] hp1) (List.eq_nil_of_length_eq_zero h0)
        have h2 : (e.sets.getD (pos1 + 1) []).length ≠ 0 := by
          intro h0
          exact hne _ (getD_mem [] hp2) (List.eq_nil_of_length_eq_zero h0)
        rw [mergedSizeOf, if_neg (by simp [hs]), hsz, sizesOf_getD hp1, sizesOf_getD hp2] at hzero
        exact absurd (Nat.mul_eq_zero.mp hzero) (by
          intro hc
          rcases hc with hc | hc
          · exact h1 hc
          · exact h2 hc)
    -- piecewise equalities for the copy loops
    have hSetsPre : (List.range pos1).map (fun i => e.sets.getD i []) = e.sets.take pos1 :=
      rangeMap_getD e.sets [] (Nat.le_of_lt hp1)
    have hSetsSuf : (List.range (e.sets.length - (pos1 + 1 + 1))).map
        (fun t => e.sets.getD (pos1 + 1 + 1 + t) []) = e.sets.drop (pos1 + 1 + 1) :=
      rangeMap_getD_shift e.sets [] (pos1 + 1 + 1)
    have hSzPre : (List.range pos1).map (fun i => e.symbol_sizes.getD i 0) =
        (sizesOf e.sets).take pos1 := by
      rw [hsz]
      exact rangeMap_getD _ 0 (by rw [hszlen]; exact Nat.le_of_lt hp1)
    have hSzSuf : (List.range (e.sets.length - (pos1 + 1 + 1))).map
        (fun t => e.symbol_sizes.getD (pos1 + 1 + 1 + t) 0) =
        (sizesOf e.sets).drop (pos1 + 1 + 1) := by
      rw [hsz]
      have h0 := rangeMap_getD_shift (sizesOf e.sets) 0 (pos1 + 1 + 1)
      rw [hszlen] at h0
      exact h0
    have hDegPre : (List.range pos1).map (fun i => e.is_degenerate.getD i false) =
        (degOf e.sets).take pos1 := by
      rw [hdeg]
      exact rangeMap_getD _ false (by rw [hdeglen]; exact Nat.le_of_lt hp1)
    have hDegSuf : (List.range (e.sets.length - (pos1 + 1 + 1))).map
        (fun t => e.is_degenerate.getD (pos1 + 1 + 1 + t) false) =
        (degOf e.sets).drop (pos1 + 1 + 1) := by
      rw [hdeg]
      have h0 := rangeMap_getD_shift (degOf e.sets) false (pos1 + 1 + 1)
      rw [hdeglen] at h0
      exact h0
    have hLensPre := lengthsOf_prefix_eq e hsz hlen hcums (Nat.le_of_lt hp1)
    have hLensSuf := lengthsOf_suffix_eq e hsz hlen hcums (pos1 + 1 + 1)
    -- the assembled arrays
    have hRsets : (mergeBuild e pos1 (pos1 + 1)).sets =
        e.sets.take pos1 ++ [mergedSetOf e pos1 (pos1 + 1)] ++ e.sets.drop (pos1 + 1 + 1) := by
      simp only [mergeBuild]
      rw [hn, hSetsPre, hSetsSuf]
    have hRsizes : (mergeBuild e pos1 (pos1 + 1)).symbol_sizes =
        sizesOf ((mergeBuild e pos1 (pos1 + 1)).sets) := by
      rw [hRsets]
      simp only [mergeBuild]
      rw [hn, hSzPre, hSzSuf, sizesOf_append, sizesOf_append, sizesOf_take, sizesOf_drop]
      have : sizesOf [mergedSetOf e pos1 (pos1 + 1)] = [mergedSizeOf e pos1 (pos1 + 1)] := by
        simp [sizesOf, hMsize]
      rw [this]
    have hRdeg : (mergeBuild e pos1 (pos1 + 1)).is_degenerate =
        degOf ((mergeBuild e pos1 (pos1 + 1)).sets) := by
      rw [hRsets]
      simp only [mergeBuild]
      rw [hn, hDegPre, hDegSuf, degOf_append, degOf_append, degOf_take, degOf_drop]
      have : degOf [mergedSetOf e pos1 (pos1 + 1)] =
          [decide (1 < mergedSizeOf e pos1 (pos1 + 1))] := by
        simp [degOf, hMsize]
      rw [this]
    have hRlens : (mergeBuild e pos1 (pos1 + 1)).string_lengths =
        lengthsOf ((mergeBuild e pos1 (pos1 + 1)).sets) := by
      rw [hRsets]
      simp only [mergeBuild]
      rw [hn, hLensPre, hLensSuf, hMlens, lengthsOf_append, lengthsOf_append]
      have : lengthsOf [mergedSetOf e pos1 (pos1 + 1)] =
          symLensOf (mergedSetOf e pos1 (pos1 + 1)) := by
        simp [lengthsOf]
      rw [this]
    have hRsetsNe : (mergeBuild e pos1 (pos1 + 1)).sets ≠ [] := by
      rw [hRsets]
      simp
    have hRn : (mergeBuild e pos1 (pos1 + 1)).n = e.n - 1 := by
      simp [mergeBuild]
    have hRsetsLen : ((mergeBuild e pos1 (pos1 + 1)).sets).length = e.n - 1 := by
      rw [hRsets]
      simp only [List.length_append, List.length_take, List.length_drop,
        List.length_cons, List.length_nil]
      omega
    refine ⟨?_, hRsets, hRn, ?_⟩
    · refine ⟨?_, ?_, ?_, ?_, hRsizes, hRlens, ?_, hRdeg, ?_, ?_, ?_, ?_, ?_⟩
      · -- is_empty
        simp only [mergeBuild]
        have : e.n - 1 ≠ 0 := by omega
        simp [this]
      · -- n = sets.length
        rw [hRn, hRsetsLen]
      · -- m
        have hRm : (mergeBuild e pos1 (pos1 + 1)).m =
            ((mergeBuild e pos1 (pos1 + 1)).symbol_sizes).sum := by
          simp only [mergeBuild]
        rw [hRm, hRsizes]
      · -- N
        have hRN : (mergeBuild e pos1 (pos1 + 1)).N =
            ((mergeBuild e pos1 (pos1 + 1)).string_lengths).sum := by
          simp only [mergeBuild]
        rw [hRN, hRlens]
      · -- cum_set_sizes
        have : (mergeBuild e pos1 (pos1 + 1)).cum_set_sizes =
            cumsOfList ((mergeBuild e pos1 (pos1 + 1)).symbol_sizes) := by
          simp only [mergeBuild]
        rw [this, hRsizes]
      · -- cum_common_positions
        rw [if_neg hRsetsNe]
        have : (mergeBuild e pos1 (pos1 + 1)).cum_common_positions =
            calcCcp ((mergeBuild e pos1 (pos1 + 1)).is_degenerate)
              ((mergeBuild e pos1 (pos1 + 1)).symbol_sizes)
              ((mergeBuild e pos1 (pos1 + 1)).string_lengths) := by
          simp only [mergeBuild]
        rw [this, hRdeg, hRsizes, hRlens]
      · -- cum_degenerate_counts
        rw [if_neg hRsetsNe]
        have : (mergeBuild e pos1 (pos1 + 1)).cum_degenerate_counts =
            calcCdc ((mergeBuild e pos1 (pos1 + 1)).is_degenerate)
              ((mergeBuild e pos1 (pos1 + 1)).symbol_sizes) := by
          simp only [mergeBuild]
        rw [this, hRdeg, hRsizes]
      · -- base positions length
        have : (mergeBuild e pos1 (pos1 + 1)).base_positions.length =
            pos1 + 1 + (e.n - (pos1 + 1 + 1)) := by
          simp [mergeBuild]
          omega
        rw [this, hRn]
        omega
      · -- symbols non-empty
        intro s hs
        rw [hRsets] at hs
        rcases List.mem_append.mp hs with hs | hs
        · rcases List.mem_append.mp hs with hs | hs
          · exact hne s (List.mem_of_mem_take hs)
          · simp only [List.mem_singleton] at hs
            rw [hs]
            exact hMne
        · exact hne s (List.mem_of_mem_drop hs)
      · -- sources
        intro hs
        have hsE : e.has_sources = true := by
          have hproj : (mergeBuild e pos1 (pos1 + 1)).has_sources = e.has_sources := by
            simp only [mergeBuild]
          rw [← hproj]
          exact hs
        have hsrc2 := hsrc hsE
        have hRsrcLen : (mergeBuild e pos1 (pos1 + 1)).sources.length =
            (mergeBuild e pos1 (pos1 + 1)).m := by
          simp only [mergeBuild, hsE, if_pos]
          simp only [List.length_append, List.length_map, List.length_range,
            List.sum_append, List.sum_cons, List.sum_nil]
          have h2 : mergedSizeOf e pos1 (pos1 + 1) = (linPairsOf e pos1 (pos1 + 1)).length := by
            unfold mergedSizeOf
            rw [if_pos hsE]
          omega
        refine ⟨hRsrcLen, ?_⟩
        intro src hsrcmem
        simp only [mergeBuild, hsE, if_pos] at hsrcmem
        rcases List.mem_append.mp hsrcmem with hx | hx
        · rcases List.mem_append.mp hx with hx | hx
          · obtain ⟨t, ht, hx⟩ := List.mem_map.mp hx
            have htk : t < ((List.range pos1).map (fun i => e.symbol_sizes.getD i 0)).sum :=
              List.mem_range.mp ht
            rw [hSzPre] at htk
            have hlt : t < e.sources.length := by
              rw [hsrc2.1, hm]
              have := List.sum_take_add_sum_drop (sizesOf e.sets) pos1
              omega
            rw [← hx]
            exact hsrc2.2 _ (getD_mem ∅ hlt)
          · exact linPairs_fst_ne e pos1 (pos1 + 1) src hx
        · obtain ⟨t, ht, hx⟩ := List.mem_map.mp hx
          have htk := List.mem_range.mp ht
          rw [hn, hSzSuf] at htk
          have hstart : e.cum_set_sizes.getD (pos1 + 1) 0 + e.symbol_sizes.getD (pos1 + 1) 0 =
              ((sizesOf e.sets).take (pos1 + 1 + 1)).sum := by
            rw [hcums, hsz, cumsOfList_getD (by rw [hszlen]; exact hp2)]
            rw [List.sum_take_succ _ (pos1 + 1) (by rw [hszlen]; exact hp2)]
            congr 1
            exact (List.getD_eq_getElem _ 0 (by rw [hszlen]; exact hp2))
          have hlt : e.cum_set_sizes.getD (pos1 + 1) 0 + e.symbol_sizes.getD (pos1 + 1) 0 + t
              < e.sources.length := by
            rw [hsrc2.1, hm, hstart]
            have := List.sum_take_add_sum_drop (sizesOf e.sets) (pos1 + 1 + 1)
            omega
          rw [← hx]
          exact hsrc2.2 _ (getD_mem ∅ hlt)
    · -- cleanliness is preserved
      intro hclean s hs a ha c hc
      rw [hRsets] at hs
      rcases List.mem_append.mp hs with hs | hs
      · rcases List.mem_append.mp hs with hs | hs
        · exact hclean s (List.mem_of_mem_take hs) a ha c hc
        · simp only [List.mem_singleton] at hs
          rw [hs] at ha
          obtain ⟨x, hx, y, hy, hxy⟩ := mergedSetOf_mem e pos1 (pos1 + 1) a ha
          rw [hxy] at hc
          rcases List.mem_append.mp hc with hc | hc
          · exact hclean _ (getD_mem [] hp1) x hx c hc
          · exact hclean _ (getD_mem [] hp2) y hy c hc
      · exact hclean s (List.mem_of_mem_drop hs) a ha c hc

theorem getD_append_singleton_right {α : Type} (A : List α) (m : α) (S : List α) (d : α) :
    (A ++ [m] ++ S).getD A.length d = m := by
  rw [List.getD_eq_getElem?_getD, List.append_assoc,
    List.getElem?_append_right (Nat.le_refl A.length)]
  simp

theorem calcCcpGo_last (sets : List (List (List Char))) :
    ∀ (pre : List Nat) (cum : Nat), (∀ s ∈ sets, s ≠ []) →
      (calcCcpGo ((degOf sets).zip (sizesOf sets)) (pre ++ lengthsOf sets)
        pre.length cum).getLastD cum = cum + nondegLenSum sets := by
  induction sets with
  | nil =>
      intro pre cum _
      simp [calcCcpGo, degOf, sizesOf, nondegLenSum]
  | cons s rest ih =>
      intro pre cum hne
      have hdz : (degOf (s :: rest)).zip (sizesOf (s :: rest)) =
          (decide (1 < s.length), s.length) :: (degOf rest).zip (sizesOf rest) := rfl
      rw [hdz]
      simp only [calcCcpGo, List.getLastD_cons]
      have hlens : lengthsOf (s :: rest) = symLensOf s ++ lengthsOf rest := by
        simp only [lengthsOf, List.flatMap_cons]
      have hsne : s ≠ [] := hne s (List.mem_cons_self s rest)
      have hgetD : (pre ++ lengthsOf (s :: rest)).getD pre.length 0 = (s.headD []).length := by
        rw [hlens, List.getD_eq_getElem?_getD,
          List.getElem?_append_right (Nat.le_refl pre.length)]
        simp only [Nat.sub_self]
        cases s with
        | nil => exact absurd rfl hsne
        | cons a t => simp [symLensOf]
      have hre : pre ++ lengthsOf (s :: rest) = (pre ++ symLensOf s) ++ lengthsOf rest := by
        rw [hlens, List.append_assoc]
      have hsidx : pre.length + s.length = (pre ++ symLensOf s).length := by
        simp [symLensOf]
      rw [hre]
      have hrw : (if decide (1 < s.length) = true then cum
          else cum + ((pre ++ symLensOf s) ++ lengthsOf rest).getD pre.length 0) =
          (if 1 < s.length then cum else cum + (s.headD []).length) := by
        by_cases hdegs : 1 < s.length
        · simp [hdegs]
        · rw [← hre, hgetD]
          simp [hdegs]
      rw [hsidx]
      rw [hrw]
      rw [ih (pre ++ symLensOf s) _ (fun x hx => hne x (List.mem_cons_of_mem s hx))]
      by_cases hdegs : 1 < s.length
      · rw [if_pos hdegs]
        have : nondegLenSum (s :: rest) = nondegLenSum rest := by
          simp only [nondegLenSum, List.filter_cons]
          rw [if_neg (by simpa using hdegs)]
        rw [this]
      · rw [if_neg hdegs]
        have : nondegLenSum (s :: rest) = (s.headD []).length + nondegLenSum rest := by
          simp only [nondegLenSum, List.filter_cons]
          rw [if_pos (by simpa using Nat.le_of_not_lt hdegs)]
          simp
        rw [this]
        omega

theorem ccp_last_eq_nondeg (sets : List (List (List Char))) (hne : ∀ s ∈ sets, s ≠ []) :
    (calcCcp (degOf sets) (sizesOf sets) (lengthsOf sets)).getLastD 0 = nondegLenSum sets := by
  simp only [calcCcp, List.getLastD_cons]
  have h := calcCcpGo_last sets [] 0 hne
  simpa using h

theorem WF_metadata_identities (E : EDS) (hwf : WF E) :
    E.symbol_sizes.sum = E.m ∧ E.string_lengths.sum = E.N ∧
    E.cum_set_sizes = cumsOfList E.symbol_sizes ∧
    E.cum_common_positions.getLastD 0 = nondegLenSum E.sets := by
  obtain ⟨-, -, hm, hN, hsz, hlen, hcums, -, hccp, -, -, hne, -⟩ := hwf
  refine ⟨?_, ?_, ?_, ?_⟩
  · rw [hsz, hm]
  · rw [hlen, hN]
  · rw [hcums, hsz]
  · rw [hccp]
    by_cases hnil : E.sets = []
    · simp [hnil, nondegLenSum]
    · rw [if_neg hnil]
      exact ccp_last_eq_nondeg E.sets hne

/-- Claim C6: after every successful parse and every successful
`merge_adjacent`, the metadata satisfies the identities: the symbol sizes sum
to `m`, the string lengths sum to `N`, `cum_set_sizes` is the list of prefix
sums of the symbol sizes, and the final entry of `cum_common_positions` is the
summed length of the non-degenerate symbols. -/
theorem claim_C6 :
    (∀ (t : List Char) (E : EDS), EDS.parse t = .ok E →
      E.symbol_sizes.sum = E.m ∧ E.string_lengths.sum = E.N ∧
      E.cum_set_sizes = cumsOfList E.symbol_sizes ∧
      E.cum_common_positions.getLastD 0 = nondegLenSum E.sets) ∧
    (∀ (e : EDS) (pos1 : Nat) (r : EDS), WF e → pos1 + 1 < e.n →
      e.merge_adjacent pos1 (pos1 + 1) = .ok r →
      r.symbol_sizes.sum = r.m ∧ r.string_lengths.sum = r.N ∧
      r.cum_set_sizes = cumsOfList r.symbol_sizes ∧
      r.cum_common_positions.getLastD 0 = nondegLenSum r.sets) := by
  constructor
  · intro t E h
    exact WF_metadata_identities E (parse_WF t E h).1
  · intro e pos1 r hwf hp h
    exact WF_metadata_identities r (merge_WF e pos1 r hwf hp h).1

/-- Witness for C6: the running example and its merge at positions 0 and 1. -/
theorem claim_C6_witness :
    (sampleEDS1.symbol_sizes.sum = sampleEDS1.m ∧
      sampleEDS1.string_lengths.sum = sampleEDS1.N ∧
      sampleEDS1.cum_set_sizes = cumsOfList sampleEDS1.symbol_sizes ∧
      sampleEDS1.cum_common_positions.getLastD 0 = nondegLenSum sampleEDS1.sets) ∧
    (sampleMerged01.symbol_sizes.sum = sampleMerged01.m ∧
      sampleMerged01.string_lengths.sum = sampleMerged01.N ∧
      sampleMerged01.cum_set_sizes = cumsOfList sampleMerged01.symbol_sizes ∧
      sampleMerged01.cum_common_positions.getLastD 0 = nondegLenSum sampleMerged01.sets) :=
  ⟨claim_C6.1 sampleText1 sampleEDS1 (by decide),
   claim_C6.2 sampleEDS1 0 sampleMerged01 (by decide) (by decide) (by decide)⟩

theorem merge_ok_inv (e : EDS) (p1 p2 : Nat) (r : EDS)
    (h : e.merge_adjacent p1 p2 = .ok r) :
    p2 = p1 + 1 ∧ p1 < e.n ∧ p2 < e.n ∧
    ¬ (e.has_sources = true ∧ mergedSizeOf e p1 p2 = 0) ∧ r = mergeBuild e p1 p2 := by
  unfold EDS.merge_adjacent at h
  split at h
  · exact absurd h (by simp)
  · rename_i hadj
    split at h
    · exact absurd h (by simp)
    · rename_i hrange
      split at h
      · exact absurd h (by simp)
      · rename_i hguard
        refine ⟨by omega, by omega, by omega, hguard, ?_⟩
        have h2 := h
        injection h2 with h3
        exact h3.symm

theorem countP_flatMap {α β : Type} (l : List α) (F : α → List β) (p : β → Bool) :
    (l.flatMap F).countP p = (l.map (fun a => (F a).countP p)).sum := by
  induction l with
  | nil => rfl
  | cons a l ih => simp [List.flatMap_cons, List.countP_append, ih]

theorem filterMap_ite_length_countP {α β : Type} (l : List α) (c : α → Prop)
    [DecidablePred c] (f : α → β) :
    (l.filterMap (fun x => if c x then none else some (f x))).length =
    l.countP (fun x => decide ¬ (c x)) := by
  induction l with
  | nil => rfl
  | cons a l ih =>
      by_cases h : c a <;> simp [List.filterMap_cons, List.countP_cons, h, ih]

theorem linPairs_length_eq_kept (e : EDS) (pos1 pos2 : Nat)
    (hsz : e.symbol_sizes = sizesOf e.sets)
    (h1 : pos1 < e.sets.length) (h2 : pos2 < e.sets.length) :
    (linPairsOf e pos1 pos2).length = keptPairCount e pos1 pos2 := by
  unfold linPairsOf keptPairCount
  rw [hsz, sizesOf_getD h1, sizesOf_getD h2]
  rw [countP_flatMap, List.length_flatMap]
  congr 1
  apply List.map_congr_left
  intro i _
  rw [List.countP_map]
  have hleft := filterMap_ite_length_countP (List.range (e.sets.getD pos2 []).length)
    (fun j => interSrc (e.sources.getD (e.cum_set_sizes.getD pos1 0 + i) ∅)
      (e.sources.getD (e.cum_set_sizes.getD pos2 0 + j) ∅) = ∅)
    (fun j => (interSrc (e.sources.getD (e.cum_set_sizes.getD pos1 0 + i) ∅)
        (e.sources.getD (e.cum_set_sizes.getD pos2 0 + j) ∅),
      e.string_lengths.getD (e.cum_set_sizes.getD pos1 0 + i) 0 +
      e.string_lengths.getD (e.cum_set_sizes.getD pos2 0 + j) 0))
  simp only [Function.comp]
  exact hleft

/-- Claim C1: for a valid adjacent pair, the merge produces a symbol of size
`|S_i| * |S_j|` in cartesian mode (where it always succeeds), and of size equal
to the number of ordered pairs with non-empty source intersection in linear
mode; the result has one symbol fewer. -/
theorem claim_C1 (e : EDS) (pos1 : Nat) (hwf : WF e) (hp : pos1 + 1 < e.n) :
    (e.has_sources = false → ∃ r, e.merge_adjacent pos1 (pos1 + 1) = .ok r) ∧
    (∀ r, e.merge_adjacent pos1 (pos1 + 1) = .ok r →
      r.symbol_sizes.getD pos1 0 =
        (if e.has_sources then keptPairCount e pos1 (pos1 + 1)
         else (e.sets.getD pos1 []).length * (e.sets.getD (pos1 + 1) []).length) ∧
      r.n = e.n - 1) := by
  have hwf2 := hwf
  obtain ⟨-, hn, -, -, hsz, -, -, -, -, -, -, -, -⟩ := hwf2
  have hp2 : pos1 + 1 < e.sets.length := hn ▸ hp
  have hp1 : pos1 < e.sets.length := Nat.lt_of_succ_lt hp2
  constructor
  · intro hs
    refine ⟨mergeBuild e pos1 (pos1 + 1), ?_⟩
    unfold EDS.merge_adjacent
    rw [if_neg (by simp), if_neg (by omega), if_neg (by simp [hs])]
  · intro r h
    obtain ⟨-, -, -, -, hr⟩ := merge_ok_inv e pos1 (pos1 + 1) r h
    subst hr
    constructor
    · have hproj : (mergeBuild e pos1 (pos1 + 1)).symbol_sizes =
          (List.range pos1).map (fun i => e.symbol_sizes.getD i 0)
          ++ [mergedSizeOf e pos1 (pos1 + 1)]
          ++ (List.range (e.n - (pos1 + 1 + 1))).map
            (fun t => e.symbol_sizes.getD (pos1 + 1 + 1 + t) 0) := by
        simp only [mergeBuild]
      rw [hproj]
      have hA : ((List.range pos1).map (fun i => e.symbol_sizes.getD i 0)).length = pos1 := by
        simp
      have hG := getD_append_singleton_right
        ((List.range pos1).map (fun i => e.symbol_sizes.getD i 0))
        (mergedSizeOf e pos1 (pos1 + 1))
        ((List.range (e.n - (pos1 + 1 + 1))).map
          (fun t => e.symbol_sizes.getD (pos1 + 1 + 1 + t) 0)) 0
      rw [hA] at hG
      rw [hG]
      unfold mergedSizeOf
      by_cases hs : e.has_sources
      · rw [if_pos hs, if_pos hs]
        exact linPairs_length_eq_kept e pos1 (pos1 + 1) hsz hp1 hp2
      · rw [if_neg (by simpa using hs), if_neg (by simpa using hs)]
        rw [hsz, sizesOf_getD hp1, sizesOf_getD hp2]
    · simp [mergeBuild]

/-- Witness for C1: the cartesian merge of the running example at (0, 1)
produces a symbol of size 1 * 2 and one symbol fewer. -/
theorem claim_C1_witness :
    sampleMerged01.symbol_sizes.getD 0 0 =
      (if sampleEDS1.has_sources then keptPairCount sampleEDS1 0 (0 + 1)
       else (sampleEDS1.sets.getD 0 []).length * (sampleEDS1.sets.getD (0 + 1) []).length) ∧
    sampleMerged01.n = sampleEDS1.n - 1 :=
  (claim_C1 sampleEDS1 0 (by decide) (by decide)).2 sampleMerged01 (by decide)

theorem keptPairSources_eq_map_fst (e : EDS) (pos1 pos2 : Nat) :
    keptPairSources e pos1 pos2 = (linPairsOf e pos1 pos2).map Prod.fst := by
  unfold keptPairSources linPairsOf
  rw [List.map_flatMap]
  apply List.flatMap_congr
  intro i _
  rw [List.map_filterMap]
  apply filterMap_congr
  intro j _
  by_cases hc : interSrc (e.sources.getD (e.cum_set_sizes.getD pos1 0 + i) ∅)
      (e.sources.getD (e.cum_set_sizes.getD pos2 0 + j) ∅) = ∅
  · rw [if_pos hc]
    show _ = Option.map _ (if _ = ∅ then none else _)
    rw [if_pos hc]
    rfl
  · rw [if_neg hc]
    show _ = Option.map _ (if _ = ∅ then none else _)
    rw [if_neg hc]
    rfl

theorem linPairs_nil_iff (e : EDS) (pos1 pos2 : Nat)
    (hsz : e.symbol_sizes = sizesOf e.sets)
    (h1 : pos1 < e.sets.length) (h2 : pos2 < e.sets.length) :
    linPairsOf e pos1 pos2 = [] ↔
      ∀ i < (e.sets.getD pos1 []).length, ∀ j < (e.sets.getD pos2 []).length,
        interSrc (e.sources.getD (e.cum_set_sizes.getD pos1 0 + i) ∅)
          (e.sources.getD (e.cum_set_sizes.getD pos2 0 + j) ∅) = ∅ := by
  unfold linPairsOf
  rw [hsz, sizesOf_getD h1, sizesOf_getD h2]
  rw [List.flatMap_eq_nil_iff]
  constructor
  · intro h i hi j hj
    have hmem := h i (List.mem_range.mpr hi)
    rw [List.filterMap_eq_nil_iff] at hmem
    have hj2 := hmem j (List.mem_range.mpr hj)
    by_contra hne
    rw [if_neg hne] at hj2
    exact absurd hj2 (by simp)
  · intro h i hi
    rw [List.filterMap_eq_nil_iff]
    intro j hj
    have hc := h i (List.mem_range.mp hi) j (List.mem_range.mp hj)
    exact if_pos hc

/-- Claim C5: with sources loaded, linear `merge_adjacent` on a valid adjacent
pair fails with the empty-merged-set error exactly when every ordered pair of
alternatives has an empty source intersection; on success the slice of the
result's source array belonging to the merged symbol is the list of pairwise
intersections of the kept pairs, in product order. -/
theorem claim_C5 (e : EDS) (pos1 : Nat) (hwf : WF e) (hs : e.has_sources = true)
    (hp : pos1 + 1 < e.n) :
    (e.merge_adjacent pos1 (pos1 + 1) = .error .emptyMergedSet ↔
      ∀ i < (e.sets.getD pos1 []).length, ∀ j < (e.sets.getD (pos1 + 1) []).length,
        interSrc (e.sources.getD (e.cum_set_sizes.getD pos1 0 + i) ∅)
          (e.sources.getD (e.cum_set_sizes.getD (pos1 + 1) 0 + j) ∅) = ∅) ∧
    (∀ r, e.merge_adjacent pos1 (pos1 + 1) = .ok r →
      (r.sources.drop (r.cum_set_sizes.getD pos1 0)).take (r.symbol_sizes.getD pos1 0) =
        keptPairSources e pos1 (pos1 + 1)) := by
  have hwf2 := hwf
  obtain ⟨-, hn, -, -, hsz, -, -, -, -, -, -, -, -⟩ := hwf2
  have hp2 : pos1 + 1 < e.sets.length := hn ▸ hp
  have hp1 : pos1 < e.sets.length := Nat.lt_of_succ_lt hp2
  constructor
  · unfold EDS.merge_adjacent
    rw [if_neg (by simp), if_neg (by omega)]
    rw [← linPairs_nil_iff e pos1 (pos1 + 1) hsz hp1 hp2]
    constructor
    · intro h
      by_cases hz : e.has_sources = true ∧ mergedSizeOf e pos1 (pos1 + 1) = 0
      · have := hz.2
        unfold mergedSizeOf at this
        rw [if_pos hs] at this
        exact List.length_eq_zero.mp this
      · rw [if_neg hz] at h
        exact absurd h (by simp)
    · intro h
      rw [if_pos ⟨hs, by unfold mergedSizeOf; rw [if_pos hs, h]; rfl⟩]
  · intro r h
    obtain ⟨-, -, -, -, hr⟩ := merge_ok_inv e pos1 (pos1 + 1) r h
    subst hr
    have hPcum : (mergeBuild e pos1 (pos1 + 1)).cum_set_sizes =
        cumsOfList ((List.range pos1).map (fun i => e.symbol_sizes.getD i 0)
          ++ [mergedSizeOf e pos1 (pos1 + 1)]
          ++ (List.range (e.n - (pos1 + 1 + 1))).map
            (fun t => e.symbol_sizes.getD (pos1 + 1 + 1 + t) 0)) := by
      simp only [mergeBuild]
    have hPsz : (mergeBuild e pos1 (pos1 + 1)).symbol_sizes =
        (List.range pos1).map (fun i => e.symbol_sizes.getD i 0)
        ++ [mergedSizeOf e pos1 (pos1 + 1)]
        ++ (List.range (e.n - (pos1 + 1 + 1))).map
          (fun t => e.symbol_sizes.getD (pos1 + 1 + 1 + t) 0) := by
      simp only [mergeBuild]
    have hPsrc : (mergeBuild e pos1 (pos1 + 1)).sources =
        (List.range (((List.range pos1).map (fun i => e.symbol_sizes.getD i 0)).sum)).map
          (fun t => e.sources.getD t ∅)
        ++ (linPairsOf e pos1 (pos1 + 1)).map Prod.fst
        ++ (List.range (((List.range (e.n - (pos1 + 1 + 1))).map
              (fun t => e.symbol_sizes.getD (pos1 + 1 + 1 + t) 0)).sum)).map
          (fun t => e.sources.getD
            (e.cum_set_sizes.getD (pos1 + 1) 0 + e.symbol_sizes.getD (pos1 + 1) 0 + t) ∅) := by
      simp only [mergeBuild]
      rw [if_pos hs]
    set A := (List.range pos1).map (fun i => e.symbol_sizes.getD i 0) with hAdef
    set S := (List.range (e.n - (pos1 + 1 + 1))).map
      (fun t => e.symbol_sizes.getD (pos1 + 1 + 1 + t) 0) with hSdef
    have hAlen : A.length = pos1 := by simp [hAdef]
    have hcumGet : (mergeBuild e pos1 (pos1 + 1)).cum_set_sizes.getD pos1 0 = A.sum := by
      rw [hPcum]
      have hlt : pos1 < (A ++ [mergedSizeOf e pos1 (pos1 + 1)] ++ S).length := by
        simp [hAlen]
      rw [cumsOfList_getD hlt]
      have htk := List.take_left A ([mergedSizeOf e pos1 (pos1 + 1)] ++ S)
      rw [hAlen] at htk
      rw [List.append_assoc, htk]
    have hszGet : (mergeBuild e pos1 (pos1 + 1)).symbol_sizes.getD pos1 0 =
        mergedSizeOf e pos1 (pos1 + 1) := by
      rw [hPsz]
      have hG := getD_append_singleton_right A (mergedSizeOf e pos1 (pos1 + 1)) S 0
      rw [hAlen] at hG
      exact hG
    rw [hcumGet, hszGet, hPsrc]
    set P := (List.range A.sum).map (fun t => e.sources.getD t ∅) with hPdef
    set M := (linPairsOf e pos1 (pos1 + 1)).map Prod.fst with hMdef
    have hPlen : P.length = A.sum := by simp [hPdef]
    have hdrop : (P ++ M ++ (List.range (S.sum)).map
        (fun t => e.sources.getD
          (e.cum_set_sizes.getD (pos1 + 1) 0 + e.symbol_sizes.getD (pos1 + 1) 0 + t) ∅)).drop
        A.sum = M ++ (List.range (S.sum)).map
        (fun t => e.sources.getD
          (e.cum_set_sizes.getD (pos1 + 1) 0 + e.symbol_sizes.getD (pos1 + 1) 0 + t) ∅) := by
      have hd := List.drop_left P (M ++ (List.range (S.sum)).map
        (fun t => e.sources.getD
          (e.cum_set_sizes.getD (pos1 + 1) 0 + e.symbol_sizes.getD (pos1 + 1) 0 + t) ∅))
      rw [hPlen] at hd
      rw [List.append_assoc, hd]
    rw [hdrop]
    have hMlen : M.length = mergedSizeOf e pos1 (pos1 + 1) := by
      rw [hMdef]
      unfold mergedSizeOf
      rw [if_pos hs]
      simp
    have htkM := List.take_left M ((List.range (S.sum)).map
      (fun t => e.sources.getD
        (e.cum_set_sizes.getD (pos1 + 1) 0 + e.symbol_sizes.getD (pos1 + 1) 0 + t) ∅))
    rw [hMlen] at htkM
    rw [htkM, hMdef, keptPairSources_eq_map_fst]

/-- Witness for C5: on the sourced example `\x7bA,B\x7d\x7bC\x7d` with sources
`\x7b0\x7d\x7b2\x7d\x7b1\x7d`, the merged symbol's source slice is the list of
kept pairwise intersections. -/
theorem claim_C5_witness :
    (sampleMerged2.sources.drop (sampleMerged2.cum_set_sizes.getD 0 0)).take
      (sampleMerged2.symbol_sizes.getD 0 0) = keptPairSources sampleEDS2 0 (0 + 1) :=
  (claim_C5 sampleEDS2 0 (by decide) (by decide) (by decide)).2 sampleMerged2 (by decide)

theorem intercalate_sep_nil :
    List.intercalate [SET_SEPARATOR] ([] : List (List Char)) = [] := rfl

theorem intercalate_sep_single (a : List Char) :
    List.intercalate [SET_SEPARATOR] [a] = a := by
  simp [List.intercalate]

theorem intercalate_sep_cons2 (a b : List Char) (t : List (List Char)) :
    List.intercalate [SET_SEPARATOR] (a :: b :: t) =
    a ++ [SET_SEPARATOR] ++ List.intercalate [SET_SEPARATOR] (b :: t) := by
  simp [List.intercalate, List.intersperse]

theorem mem_intercalate_sep :
    ∀ (alts : List (List Char)) (c : Char),
      c ∈ List.intercalate [SET_SEPARATOR] alts →
      c = SET_SEPARATOR ∨ ∃ a ∈ alts, c ∈ a
  | [], c => by simp [intercalate_sep_nil]
  | [a], c => by
      rw [intercalate_sep_single]
      intro hc
      exact Or.inr ⟨a, by simp, hc⟩
  | a :: b :: t, c => by
      rw [intercalate_sep_cons2]
      intro hc
      rcases List.mem_append.mp hc with hc | hc
      · rcases List.mem_append.mp hc with hc | hc
        · exact Or.inr ⟨a, by simp, hc⟩
        · simp at hc
          exact Or.inl hc
      · rcases mem_intercalate_sep (b :: t) c hc with hc | ⟨x, hx, hcx⟩
        · exact Or.inl hc
        · exact Or.inr ⟨x, List.mem_cons_of_mem a hx, hcx⟩

theorem bracedRender_nil : bracedRender ([] : List (List (List Char))) = [] := rfl

theorem bracedRender_cons (s : List (List Char)) (tl : List (List (List Char))) :
    bracedRender (s :: tl) = renderSymbol s ++ bracedRender tl := by
  simp [bracedRender]

theorem bracedRender_chars :
    ∀ (sets : List (List (List Char))) (c : Char), c ∈ bracedRender sets →
      c = SET_OPEN ∨ c = SET_CLOSE ∨ c = SET_SEPARATOR ∨ ∃ s ∈ sets, ∃ a ∈ s, c ∈ a
  | [], c => by simp [bracedRender_nil]
  | s :: tl, c => by
      rw [bracedRender_cons]
      intro hc
      rcases List.mem_append.mp hc with hc | hc
      · unfold renderSymbol at hc
        rcases List.mem_cons.mp hc with hc | hc
        · exact Or.inl hc
        · rcases List.mem_append.mp hc with hc | hc
          · rcases mem_intercalate_sep s c hc with hc | ⟨a, ha, hca⟩
            · exact Or.inr (Or.inr (Or.inl hc))
            · exact Or.inr (Or.inr (Or.inr ⟨s, by simp, a, ha, hca⟩))
          · simp at hc
            exact Or.inr (Or.inl hc)
      · rcases bracedRender_chars tl c hc with hc | hc | hc | ⟨s2, hs2, a, ha, hca⟩
        · exact Or.inl hc
        · exact Or.inr (Or.inl hc)
        · exact Or.inr (Or.inr (Or.inl hc))
        · exact Or.inr (Or.inr (Or.inr ⟨s2, List.mem_cons_of_mem s hs2, a, ha, hca⟩))

theorem length_le_bracedRender :
    ∀ sets : List (List (List Char)), sets.length ≤ (bracedRender sets).length
  | [] => by simp [bracedRender_nil]
  | s :: tl => by
      rw [bracedRender_cons]
      have h1 : 1 ≤ (renderSymbol s).length := by
        simp [renderSymbol]
      have h2 := length_le_bracedRender tl
      simp only [List.length_cons, List.length_append]
      omega

theorem normalizeAux_passthrough :
    ∀ (input res : List Char) (depth : Int),
      NoBare input depth → normalizeAux input res [] depth = res ++ input
  | [], res, depth => by
      intro _
      simp [normalizeAux]
  | c :: rest, res, depth => by
      intro h
      obtain ⟨ho, hc, he⟩ := h
      by_cases h1 : c = SET_OPEN
      · subst h1
        show normalizeAux (SET_OPEN :: rest) res [] depth = res ++ SET_OPEN :: rest
        simp only [normalizeAux, ne_eq, not_true_eq_false, false_and, if_neg,
          ite_false, if_pos rfl]
        rw [normalizeAux_passthrough rest (res ++ [SET_OPEN]) (depth + 1) (ho rfl)]
        simp
      · by_cases h2 : c = SET_CLOSE
        · subst h2
          show normalizeAux (SET_CLOSE :: rest) res [] depth = res ++ SET_CLOSE :: rest
          simp only [normalizeAux, if_neg h1, if_pos rfl]
          rw [normalizeAux_passthrough rest (res ++ [SET_CLOSE]) (depth - 1) (hc rfl)]
          simp
        · obtain ⟨hd, hrest⟩ := he h1 h2
          show normalizeAux (c :: rest) res [] depth = res ++ c :: rest
          simp only [normalizeAux, if_neg h1, if_neg h2, if_pos hd]
          rw [normalizeAux_passthrough rest (res ++ [c]) depth hrest]
          simp

theorem NoBare_inner :
    ∀ (body rest : List Char) (d : Int), 0 < d →
      (∀ c ∈ body, c ≠ SET_CLOSE) →
      (∀ d2 : Int, 0 < d2 → NoBare rest d2) → NoBare (body ++ rest) d
  | [], rest, d => by
      intro hd _ hrest
      exact hrest d hd
  | c :: body, rest, d => by
      intro hd hb hrest
      show NoBare (c :: (body ++ rest)) d
      by_cases h1 : c = SET_OPEN
      · refine ⟨fun _ => ?_, fun h2 => absurd (h1.symm.trans h2) openNeClose, fun h2 _ => absurd h1 h2⟩
        exact NoBare_inner body rest (d + 1) (by omega)
          (fun x hx => hb x (List.mem_cons_of_mem c hx)) hrest
      · refine ⟨fun h2 => absurd h2 h1, fun h2 => absurd h2 (hb c (List.mem_cons_self c body)),
          fun _ _ => ⟨hd, ?_⟩⟩
        exact NoBare_inner body rest d hd
          (fun x hx => hb x (List.mem_cons_of_mem c hx)) hrest

theorem NoBare_piece (alts : List (List Char)) (rest : List Char) (d : Int)
    (hd : 0 ≤ d)
    (hclean : ∀ a ∈ alts, ∀ c ∈ a, c ≠ SET_CLOSE)
    (hrest : ∀ d2 : Int, 0 ≤ d2 → NoBare rest d2) :
    NoBare (renderSymbol alts ++ rest) d := by
  have hshape : renderSymbol alts ++ rest =
      SET_OPEN :: (List.intercalate [SET_SEPARATOR] alts ++ SET_CLOSE :: rest) := by
    simp [renderSymbol]
  rw [hshape]
  refine ⟨fun _ => ?_, fun h2 => absurd h2 openNeClose, fun h2 _ => absurd rfl h2⟩
  apply NoBare_inner _ _ (d + 1) (by omega)
  · intro c hc
    rcases mem_intercalate_sep alts c hc with hc | ⟨a, ha, hca⟩
    · rw [hc]; exact sepNeClose
    · exact hclean a ha c hca
  · intro d2 hd2
    exact ⟨fun h2 => absurd h2.symm openNeClose, fun _ => hrest (d2 - 1) (by omega),
      fun _ h2 => absurd rfl h2⟩

theorem NoBare_bracedRender :
    ∀ (sets : List (List (List Char))),
      (∀ s ∈ sets, ∀ a ∈ s, ∀ c ∈ a, c ≠ SET_CLOSE) →
      ∀ d : Int, 0 ≤ d → NoBare (bracedRender sets) d
  | [], _ => by
      intro d _
      rw [bracedRender_nil]
      trivial
  | s :: tl, hclean => by
      intro d hd
      rw [bracedRender_cons]
      refine NoBare_piece s (bracedRender tl) d hd
        (fun a ha c hc => hclean s (List.mem_cons_self s tl) a ha c hc)
        (fun d2 hd2 => NoBare_bracedRender tl
          (fun x hx a ha c hc => hclean x (List.mem_cons_of_mem s hx) a ha c hc) d2 hd2)

theorem normalize_bracedRender (sets : List (List (List Char)))
    (hclean : ∀ s ∈ sets, ∀ a ∈ s, ∀ c ∈ a, c ≠ SET_CLOSE) :
    normalize_eds_format (bracedRender sets) = bracedRender sets := by
  unfold normalize_eds_format
  rw [normalizeAux_passthrough _ [] 0 (NoBare_bracedRender sets hclean 0 (by omega))]
  simp

theorem scanAlts_through :
    ∀ (a : List Char), (∀ c ∈ a, c ≠ SET_CLOSE ∧ c ≠ SET_SEPARATOR) →
      ∀ (tail cur : List Char), scanAlts (a ++ tail) cur = scanAlts tail (cur ++ a)
  | [], _ => by
      intro tail cur
      simp
  | c :: a, ha => by
      intro tail cur
      obtain ⟨h1, h2⟩ := ha c (List.mem_cons_self c a)
      show scanAlts (c :: (a ++ tail)) cur = _
      simp only [scanAlts, if_neg h1, if_neg h2]
      rw [scanAlts_through a (fun x hx => ha x (List.mem_cons_of_mem c hx)) tail (cur ++ [c])]
      simp

theorem scanAlts_render :
    ∀ (alts : List (List Char)), alts ≠ [] →
      (∀ a ∈ alts, ∀ c ∈ a, c ≠ SET_CLOSE ∧ c ≠ SET_SEPARATOR) →
      ∀ rest : List Char,
        scanAlts (List.intercalate [SET_SEPARATOR] alts ++ SET_CLOSE :: rest) [] =
          (alts, SET_CLOSE :: rest)
  | [], h => absurd rfl h
  | [a], _ => by
      intro hc rest
      rw [intercalate_sep_single]
      rw [scanAlts_through a (hc a (by simp)) (SET_CLOSE :: rest) []]
      show scanAlts (SET_CLOSE :: rest) a = _
      simp [scanAlts]
  | a :: b :: t, _ => by
      intro hc rest
      rw [intercalate_sep_cons2]
      have hshape : (a ++ [SET_SEPARATOR] ++ List.intercalate [SET_SEPARATOR] (b :: t))
          ++ SET_CLOSE :: rest =
          a ++ (SET_SEPARATOR :: (List.intercalate [SET_SEPARATOR] (b :: t)
            ++ SET_CLOSE :: rest)) := by
        simp
      rw [hshape]
      rw [scanAlts_through a (hc a (by simp)) _ []]
      show scanAlts (SET_SEPARATOR :: _) a = _
      simp only [scanAlts, if_neg sepNeClose, if_pos rfl]
      rw [scanAlts_render (b :: t) (by simp)
        (fun x hx => hc x (List.mem_cons_of_mem a hx)) rest]
      simp

theorem parseLoop_render :
    ∀ (sets : List (List (List Char))) (fuel pos : Nat) (st : Build),
      (∀ s ∈ sets, s ≠ []) →
      (∀ s ∈ sets, ∀ a ∈ s, ∀ c ∈ a, c ≠ SET_CLOSE ∧ c ≠ SET_SEPARATOR) →
      sets.length < fuel →
      ∃ st2, parseLoop fuel (bracedRender sets) pos st = .ok st2 ∧
        st2.sets = st.sets ++ sets ∧ st2.n = st.n + sets.length
  | [], fuel, pos, st => by
      intro _ _ hfuel
      obtain ⟨f, rfl⟩ : ∃ f, fuel = f + 1 := ⟨fuel - 1, by omega⟩
      rw [bracedRender_nil]
      exact ⟨st, by simp [parseLoop], by simp, by simp⟩
  | s :: tl, fuel, pos, st => by
      intro hne hclean hfuel
      obtain ⟨f, rfl⟩ : ∃ f, fuel = f + 1 := ⟨fuel - 1, by omega⟩
      have hshape : bracedRender (s :: tl) =
          SET_OPEN :: (List.intercalate [SET_SEPARATOR] s
            ++ SET_CLOSE :: bracedRender tl) := by
        rw [bracedRender_cons]
        simp [renderSymbol]
      rw [hshape]
      have hscan := scanAlts_render s (hne s (by simp)) (hclean s (by simp)) (bracedRender tl)
      have hslen : s.length ≠ 0 := by
        intro h0
        exact hne s (by simp) (List.length_eq_zero.mp h0)
      obtain ⟨st2, heq, hsets, hn⟩ := parseLoop_render tl f _ (pushSymbol st pos s)
        (fun x hx => hne x (List.mem_cons_of_mem s hx))
        (fun x hx => hclean x (List.mem_cons_of_mem s hx))
        (by simp at hfuel; omega)
      refine ⟨st2, ?_, ?_, ?_⟩
      · simp only [parseLoop, hscan, ne_eq]
        rw [if_neg (by simp)]
        simp only [hslen, ite_false, if_neg (by simp : ¬ ¬ SET_CLOSE = SET_CLOSE)]
        exact heq
      · rw [hsets]
        simp [pushSymbol]
      · rw [hn]
        simp [pushSymbol]
        omega

theorem parse_bracedRender (sets : List (List (List Char)))
    (hne : ∀ s ∈ sets, s ≠ [])
    (hclean : ∀ s ∈ sets, ∀ a ∈ s, ∀ c ∈ a,
      c ≠ SET_CLOSE ∧ c ≠ SET_SEPARATOR ∧ isSpace c = false) :
    ∃ E, EDS.parse (bracedRender sets) = .ok E ∧ E.n = sets.length ∧ E.sets = sets := by
  have hnospace : ∀ c ∈ bracedRender sets, (¬ isSpace c : Bool) = true := by
    intro c hc
    rcases bracedRender_chars sets c hc with hc | hc | hc | ⟨s, hs, a, ha, hca⟩
    · rw [hc]; decide
    · rw [hc]; decide
    · rw [hc]; decide
    · simp [(hclean s hs a ha c hca).2.2]
  have hfilter : (bracedRender sets).filter (fun c => ¬ isSpace c) = bracedRender sets :=
    List.filter_eq_self.mpr hnospace
  unfold EDS.parse
  rw [hfilter]
  rcases sets with _ | ⟨s, tl⟩
  · rw [bracedRender_nil]
    exact ⟨emptyEDS, by simp, by simp [emptyEDS], by simp [emptyEDS]⟩
  · have hnenil : bracedRender (s :: tl) ≠ [] := by
      rw [bracedRender_cons]
      simp [renderSymbol]
    rw [if_neg hnenil]
    rw [normalize_bracedRender _ (fun x hx a ha c hc => ((hclean x hx a ha c hc).1))]
    obtain ⟨st2, heq, hsets, hn⟩ := parseLoop_render (s :: tl)
      ((bracedRender (s :: tl)).length + 1) 0 Build.empty hne
      (fun x hx a ha c hc => ⟨(hclean x hx a ha c hc).1, (hclean x hx a ha c hc).2.1⟩)
      (Nat.lt_succ_of_le (length_le_bracedRender (s :: tl)))
    have hn2 : st2.n = tl.length + 1 := by
      rw [hn]; simp [Build.empty]
    simp only [heq]
    rw [if_neg (by rw [hn2]; omega)]
    refine ⟨finalizeBuild st2, rfl, ?_, ?_⟩
    · show st2.n = (s :: tl).length
      rw [hn2]; simp
    · show st2.sets = s :: tl
      rw [hsets]; simp [Build.empty]

theorem parseSourcesLoop_nonempty :
    ∀ (fuel : Nat) (input : List Char) (pos : Nat) (acc srcs : List (Finset Nat)),
      (∀ s ∈ acc, s ≠ ∅) → parseSourcesLoop fuel input pos acc = .ok srcs →
      ∀ s ∈ srcs, s ≠ ∅
  | 0, _, _, _, _ => by
      intro _ h
      simp [parseSourcesLoop] at h
  | _ + 1, [], _, acc, srcs => by
      intro hacc h
      simp only [parseSourcesLoop, Except.ok.injEq] at h
      subst h
      exact hacc
  | fuel + 1, c :: rest, pos, acc, srcs => by
      intro hacc h
      simp only [parseSourcesLoop] at h
      split at h
      · exact absurd h (by simp)
      · split at h
        · exact absurd h (by simp)
        · split at h
          · exact absurd h (by simp)
          · rename_i hps
            refine parseSourcesLoop_nonempty fuel _ _ _ srcs ?_ h
            intro s hs
            rcases List.mem_append.mp hs with hs | hs
            · exact hacc s hs
            · simp at hs
              rw [hs]
              exact hps

theorem load_sources_ok (e : EDS) (src : List Char) (e' : EDS)
    (h : e.load_sources src = .ok e') :
    e'.n = e.n ∧ e'.sets = e.sets ∧ (WF e → WF e') := by
  simp only [EDS.load_sources] at h
  split at h
  · exact absurd h (by simp)
  · split at h
    · exact absurd h (by simp)
    · rename_i srcs hloop
      split at h
      · exact absurd h (by simp)
      · rename_i hcount
        have he' : e' = { e with has_sources := true, sources := srcs } := by
          injection h with h2
          exact h2.symm
        subst he'
        refine ⟨rfl, rfl, ?_⟩
        intro hwf
        obtain ⟨h1, h2, h3, h4, h5, h6, h7, h8, h9, h10, h11, h12, _⟩ := hwf
        refine ⟨h1, h2, h3, h4, h5, h6, h7, h8, h9, h10, h11, h12, ?_⟩
        intro _
        constructor
        · show srcs.length = e.m
          simpa using hcount
        · intro s hs
          exact parseSourcesLoop_nonempty _ _ _ [] srcs (by simp) hloop s hs

theorem merge_ok_sym (e : EDS) (p1 p2 : Nat) (r : EDS) (hwf : WF e)
    (hclean : CleanSets e.sets) (h : e.merge_adjacent p1 p2 = .ok r) :
    WF r ∧ CleanSets r.sets := by
  obtain ⟨hadj, h1, h2, -, -⟩ := merge_ok_inv e p1 p2 r h
  subst hadj
  obtain ⟨hwfr, -, -, hcl⟩ := merge_WF e p1 r hwf h2 h
  exact ⟨hwfr, hcl hclean⟩

theorem merge_multiple_sym (e : EDS) (hwf : WF e) (hclean : CleanSets e.sets) :
    ∀ (pairs : List (Nat × Nat)) (results : List MergeResult),
      merge_multiple_pairs e pairs = .ok results →
      ∀ r ∈ results, r.merged_set ≠ [] ∧
        ∀ a ∈ r.merged_set, ∀ c ∈ a,
          c ≠ SET_CLOSE ∧ c ≠ SET_SEPARATOR ∧ isSpace c = false
  | [], results => by
      intro h r hr
      simp only [merge_multiple_pairs, Except.ok.injEq] at h
      subst h
      simp at hr
  | p :: rest, results => by
      intro h r hr
      simp only [merge_multiple_pairs] at h
      split at h
      · exact absurd h (by simp)
      · rename_i merged hmerge
        split at h
        · exact absurd h (by simp)
        · rename_i mset hread
          split at h
          · exact absurd h (by simp)
          · rename_i rs hrest
            have hres2 := h
            injection hres2 with hres2
            rw [← hres2] at hr
            rcases List.mem_cons.mp hr with hr | hr
            · obtain ⟨hwfm, hclm⟩ := merge_ok_sym e p.1 p.2 merged hwf hclean hmerge
              have hnm : merged.n = merged.sets.length := hwfm.2.1
              unfold read_symbol at hread
              split at hread
              · exact absurd hread (by simp)
              · rename_i hp1
                have hmset : mset = merged.sets.getD p.1 [] := by
                  injection hread with h2
                  exact h2.symm
                have hp1lt : p.1 < merged.sets.length := by
                  rw [← hnm]; omega
                have hmem : mset ∈ merged.sets := by
                  rw [hmset]; exact getD_mem [] hp1lt
                subst hr
                constructor
                · show mset ≠ []
                  exact hwfm.2.2.2.2.2.2.2.2.2.2.2.1 mset hmem
                · show ∀ a ∈ mset, _
                  intro a ha c hc
                  exact hclm mset hmem a ha c hc
            · exact merge_multiple_sym e hwf hclean rest rs hrest r hr

theorem reconstructPieces_sym (e : EDS) (results : List MergeResult) (hwf : WF e)
    (hclean : CleanSets e.sets)
    (hres : ∀ r ∈ results, r.merged_set ≠ [] ∧
      ∀ a ∈ r.merged_set, ∀ c ∈ a,
        c ≠ SET_CLOSE ∧ c ≠ SET_SEPARATOR ∧ isSpace c = false) :
    (reconstructPieces e results).length ≤ e.n ∧
    ∀ p ∈ reconstructPieces e results, p.1 ≠ [] ∧
      ∀ a ∈ p.1, ∀ c ∈ a, c ≠ SET_CLOSE ∧ c ≠ SET_SEPARATOR ∧ isSpace c = false := by
  constructor
  · have := List.length_filterMap_le (fun pos =>
      if results.any (fun r => r.original_pos2 = pos) then none
      else
        match results.find? (fun r => r.original_pos1 = pos) with
        | some r => some (r.merged_set, r.merged_sources)
        | none =>
            some (e.sets.getD pos [],
              (List.range (e.symbol_sizes.getD pos 0)).map
                (fun j => e.sources.getD (e.cum_set_sizes.getD pos 0 + j) ∅)))
      (List.range e.n)
    simpa [reconstructPieces] using this
  · intro p hp
    unfold reconstructPieces at hp
    obtain ⟨pos, hpos, hf⟩ := List.mem_filterMap.mp hp
    have hposn : pos < e.n := List.mem_range.mp hpos
    split at hf
    · exact absurd hf (by simp)
    · split at hf
      · rename_i r hfind
        have hp1 : p.1 = r.merged_set := by
          injection hf with h2
          rw [← h2]
        have hrmem : r ∈ results := List.mem_of_find?_eq_some hfind
        rw [hp1]
        exact hres r hrmem
      · have hp1 : p.1 = e.sets.getD pos [] := by
          injection hf with h2
          rw [← h2]
        have hplt : pos < e.sets.length := by
          rw [← hwf.2.1]; exact hposn
        have hmem : p.1 ∈ e.sets := by
          rw [hp1]; exact getD_mem [] hplt
        exact ⟨hwf.2.2.2.2.2.2.2.2.2.2.2.1 p.1 hmem,
          fun a ha c hc => hclean p.1 hmem a ha c hc⟩

theorem flatten_renderSymbol (pieces : List (List (List Char) × List (Finset Nat))) :
    (pieces.map (fun p => renderSymbol p.1)).flatten = bracedRender (pieces.map Prod.fst) := by
  unfold bracedRender
  rw [List.map_map]
  rfl

theorem reconstruct_ok (e : EDS) (results : List MergeResult) (e2 : EDS) (hwf : WF e)
    (hclean : CleanSets e.sets)
    (hres : ∀ r ∈ results, r.merged_set ≠ [] ∧
      ∀ a ∈ r.merged_set, ∀ c ∈ a,
        c ≠ SET_CLOSE ∧ c ≠ SET_SEPARATOR ∧ isSpace c = false)
    (h : reconstruct_eds e results = .ok e2) :
    e2.n ≤ e.n ∧ WF e2 ∧ CleanSets e2.sets := by
  obtain ⟨hlen, hpieces⟩ := reconstructPieces_sym e results hwf hclean hres
  have hne2 : ∀ s ∈ (reconstructPieces e results).map Prod.fst, s ≠ [] := by
    intro s hs
    obtain ⟨p, hp, hps⟩ := List.mem_map.mp hs
    rw [← hps]
    exact (hpieces p hp).1
  have hclean2 : ∀ s ∈ (reconstructPieces e results).map Prod.fst, ∀ a ∈ s, ∀ c ∈ a,
      c ≠ SET_CLOSE ∧ c ≠ SET_SEPARATOR ∧ isSpace c = false := by
    intro s hs
    obtain ⟨p, hp, hps⟩ := List.mem_map.mp hs
    rw [← hps]
    exact (hpieces p hp).2
  obtain ⟨E0, hE0, hE0n, hE0sets⟩ :=
    parse_bracedRender ((reconstructPieces e results).map Prod.fst) hne2 hclean2
  have hlen2 : ((reconstructPieces e results).map Prod.fst).length ≤ e.n := by
    simpa using hlen
  simp only [reconstruct_eds] at h
  rw [flatten_renderSymbol] at h
  split at h
  · rename_i hsrc
    unfold EDS.parseWithSources at h
    rw [hE0] at h
    obtain ⟨hn2, hsets2, hwf2⟩ := load_sources_ok E0 _ e2 h
    obtain ⟨hwf0, hclean0⟩ := parse_WF _ E0 hE0
    refine ⟨?_, hwf2 hwf0, ?_⟩
    · rw [hn2, hE0n]; exact hlen2
    · show CleanSets e2.sets
      rw [hsets2]; exact hclean0
  · rw [hE0] at h
    have he2 : e2 = E0 := by
      injection h with h2
      exact h2.symm
    subst he2
    obtain ⟨hwf0, hclean0⟩ := parse_WF _ e2 hE0
    exact ⟨by rw [hE0n]; exact hlen2, hwf0, hclean0⟩

theorem driverGo_ok :
    ∀ (fuel L : Nat) (e E' : EDS), WF e → CleanSets e.sets →
      driverGo L fuel e = .ok E' →
      (is_leds E' L = true ∨ select_independent_merge_pairs E' L = []) ∧
      E'.n ≤ e.n ∧ WF E' ∧ CleanSets E'.sets
  | 0, L, e, E' => by
      intro _ _ h
      simp [driverGo] at h
  | fuel + 1, L, e, E' => by
      intro hwf hclean h
      simp only [driverGo] at h
      split at h
      · rename_i hleds
        have he : E' = e := by
          injection h with h2
          exact h2.symm
        subst he
        exact ⟨Or.inl hleds, Nat.le_refl _, hwf, hclean⟩
      · split at h
        · rename_i hpairs
          have he : E' = e := by
            injection h with h2
            exact h2.symm
          subst he
          exact ⟨Or.inr hpairs, Nat.le_refl _, hwf, hclean⟩
        · split at h
          · exact absurd h (by simp)
          · rename_i results hmm
            split at h
            · exact absurd h (by simp)
            · rename_i e2 hrec
              have hres := merge_multiple_sym e hwf hclean _ results hmm
              obtain ⟨hle, hwf2, hclean2⟩ := reconstruct_ok e results e2 hwf hclean hres hrec
              obtain ⟨hp, hle2, hwfE, hcleanE⟩ := driverGo_ok fuel L e2 E' hwf2 hclean2 h
              exact ⟨hp, Nat.le_trans hle2 hle, hwfE, hcleanE⟩

theorem parseLoop_not_noConv :
    ∀ (fuel : Nat) (input : List Char) (pos : Nat) (st : Build) (err : Err),
      parseLoop fuel input pos st = .error err → err ≠ .noConvergence
  | 0, _, _, _, err => by
      intro h
      simp only [parseLoop, Except.error.injEq] at h
      rw [← h]; simp
  | _ + 1, [], _, _, _ => by
      intro h
      simp [parseLoop] at h
  | fuel + 1, c :: rest, pos, st, err => by
      intro h
      simp only [parseLoop] at h
      split at h
      · injection h with h2; rw [← h2]; simp
      · split at h
        · injection h with h2; rw [← h2]; simp
        · split at h
          · injection h with h2; rw [← h2]; simp
          · split at h
            · injection h with h2; rw [← h2]; simp
            · exact parseLoop_not_noConv fuel _ _ _ err h

theorem parse_not_noConv (t : List Char) (err : Err)
    (h : EDS.parse t = .error err) : err ≠ .noConvergence := by
  simp only [EDS.parse] at h
  split at h
  · exact absurd h (by simp)
  · split at h
    · rename_i err2 herr
      injection h with h2
      rw [← h2]
      exact parseLoop_not_noConv _ _ _ _ err2 herr
    · split at h <;> exact absurd h (by simp)

theorem scanSrcSet_not_noConv :
    ∀ (input : List Char) (pos : Nat) (cur : List Char) (acc : Finset Nat) (err : Err),
      scanSrcSet input pos cur acc = .error err → err ≠ .noConvergence
  | [], pos, cur, acc, err => by
      intro h
      simp only [scanSrcSet, Except.error.injEq] at h
      rw [← h]; simp
  | c :: rest, pos, cur, acc, err => by
      intro h
      simp only [scanSrcSet] at h
      split at h
      · exact absurd h (by simp)
      · split at h
        · exact scanSrcSet_not_noConv rest _ _ _ err h
        · split at h
          · exact scanSrcSet_not_noConv rest _ _ _ err h
          · injection h with h2; rw [← h2]; simp

theorem parseSourcesLoop_not_noConv :
    ∀ (fuel : Nat) (input : List Char) (pos : Nat) (acc : List (Finset Nat)) (err : Err),
      parseSourcesLoop fuel input pos acc = .error err → err ≠ .noConvergence
  | 0, _, _, _, err => by
      intro h
      simp only [parseSourcesLoop, Except.error.injEq] at h
      rw [← h]; simp
  | _ + 1, [], _, _, _ => by
      intro h
      simp [parseSourcesLoop] at h
  | fuel + 1, c :: rest, pos, acc, err => by
      intro h
      simp only [parseSourcesLoop] at h
      split at h
      · injection h with h2; rw [← h2]; simp
      · split at h
        · rename_i err2 herr
          injection h with h2
          rw [← h2]
          exact scanSrcSet_not_noConv rest _ _ _ err2 herr
        · split at h
          · injection h with h2; rw [← h2]; simp
          · exact parseSourcesLoop_not_noConv fuel _ _ _ err h

theorem load_sources_not_noConv (e : EDS) (src : List Char) (err : Err)
    (h : e.load_sources src = .error err) : err ≠ .noConvergence := by
  simp only [EDS.load_sources] at h
  split at h
  · injection h with h2; rw [← h2]; simp
  · split at h
    · rename_i err2 herr
      injection h with h2
      rw [← h2]
      exact parseSourcesLoop_not_noConv _ _ _ _ err2 herr
    · split at h
      · injection h with h2; rw [← h2]; simp
      · exact absurd h (by simp)

theorem parseWithSources_not_noConv (t s : List Char) (err : Err)
    (h : EDS.parseWithSources t s = .error err) : err ≠ .noConvergence := by
  unfold EDS.parseWithSources at h
  split at h
  · rename_i err2 herr
    injection h with h2
    rw [← h2]
    exact parse_not_noConv t err2 herr
  · exact load_sources_not_noConv _ s err h

theorem merge_adjacent_not_noConv (e : EDS) (p1 p2 : Nat) (err : Err)
    (h : e.merge_adjacent p1 p2 = .error err) : err ≠ .noConvergence := by
  unfold EDS.merge_adjacent at h
  split at h
  · injection h with h2; rw [← h2]; simp
  · split at h
    · injection h with h2; rw [← h2]; simp
    · split at h
      · injection h with h2; rw [← h2]; simp
      · exact absurd h (by simp)

theorem read_symbol_not_noConv (e : EDS) (pos : Nat) (err : Err)
    (h : read_symbol e pos = .error err) : err ≠ .noConvergence := by
  unfold read_symbol at h
  split at h
  · injection h with h2; rw [← h2]; simp
  · exact absurd h (by simp)

theorem merge_multiple_not_noConv (e : EDS) :
    ∀ (pairs : List (Nat × Nat)) (err : Err),
      merge_multiple_pairs e pairs = .error err → err ≠ .noConvergence
  | [], err => by
      intro h
      simp [merge_multiple_pairs] at h
  | p :: rest, err => by
      intro h
      simp only [merge_multiple_pairs] at h
      split at h
      · rename_i err2 herr
        injection h with h2
        rw [← h2]
        exact merge_adjacent_not_noConv e p.1 p.2 err2 herr
      · split at h
        · rename_i err2 herr
          injection h with h2
          rw [← h2]
          exact read_symbol_not_noConv _ p.1 err2 herr
        · split at h
          · rename_i err2 herr
            injection h with h2
            rw [← h2]
            exact merge_multiple_not_noConv e rest err2 herr
          · exact absurd h (by simp)

theorem reconstruct_not_noConv (e : EDS) (results : List MergeResult) (err : Err)
    (h : reconstruct_eds e results = .error err) : err ≠ .noConvergence := by
  simp only [reconstruct_eds] at h
  split at h
  · exact parseWithSources_not_noConv _ _ err h
  · exact parse_not_noConv _ err h

theorem parseWithSources_inv (t s : List Char) (E : EDS)
    (h : EDS.parseWithSources t s = .ok E) : WF E ∧ CleanSets E.sets := by
  unfold EDS.parseWithSources at h
  split at h
  · exact absurd h (by simp)
  · rename_i e0 he0
    obtain ⟨-, hsets0, hwf0⟩ := load_sources_ok e0 s E h
    obtain ⟨hwfp, hcleanp⟩ := parse_WF t e0 he0
    exact ⟨hwf0 hwfp, by rw [hsets0]; exact hcleanp⟩

theorem loadInput_inv (t : List Char) (s : Option (List Char)) (E : EDS)
    (h : loadInput t s = .ok E) : WF E ∧ CleanSets E.sets := by
  rcases s with _ | s
  · exact parse_WF t E h
  · exact parseWithSources_inv t s E h

/-- Claim C2: a successful driver run ends at the predicate or at an empty pair
selection and never grows the symbol count; an empty selection (a fixed point)
is returned as-is rather than raising an error; and the no-convergence error
propagates only through full iterations down to the exhausted iteration budget. -/
theorem claim_C2 :
    (∀ (edsText : List Char) (sedsText : Option (List Char)) (L : Nat) (E' : EDS),
      eds_to_leds_linear edsText sedsText L = .ok E' →
      (is_leds E' L = true ∨ select_independent_merge_pairs E' L = []) ∧
      ∀ E, loadInput edsText sedsText = .ok E → E'.n ≤ E.n) ∧
    (∀ (L fuel : Nat) (e : EDS), select_independent_merge_pairs e L = [] →
      driverGo L (fuel + 1) e = .ok e) ∧
    (∀ (L fuel : Nat) (e : EDS), driverGo L (fuel + 1) e = .error .noConvergence →
      is_leds e L = false ∧ select_independent_merge_pairs e L ≠ [] ∧
      ∃ results e2,
        merge_multiple_pairs e (select_independent_merge_pairs e L) = .ok results ∧
        reconstruct_eds e results = .ok e2 ∧
        driverGo L fuel e2 = .error .noConvergence) := by
  refine ⟨?_, ?_, ?_⟩
  · intro edsText sedsText L E' h
    unfold eds_to_leds_linear at h
    split at h
    · exact absurd h (by simp)
    · split at h
      · exact absurd h (by simp)
      · rename_i E hE
        have hE2 : loadInput edsText sedsText = .ok E := hE
        have hinv := loadInput_inv edsText sedsText E hE2
        obtain ⟨hp, hle, -, -⟩ := driverGo_ok MAX_ITERATIONS L E E' hinv.1 hinv.2 h
        refine ⟨hp, ?_⟩
        intro E2 hE3
        have hEE : E2 = E := by
          rw [hE2] at hE3
          injection hE3 with h2
          exact h2.symm
        rw [hEE]
        exact hle
  · intro L fuel e hpairs
    simp [driverGo, hpairs]
  · intro L fuel e h
    simp only [driverGo] at h
    split at h
    · exact absurd h (by simp)
    · rename_i hleds
      split at h
      · exact absurd h (by simp)
      · rename_i hpairs
        split at h
        · rename_i err2 hmerr
          injection h with h2
          exact absurd h2 (merge_multiple_not_noConv e _ err2 hmerr)
        · rename_i results hmm
          split at h
          · rename_i err2 hrerr
            injection h with h2
            exact absurd h2 (reconstruct_not_noConv e results err2 hrerr)
          · rename_i e2 hrec
            exact ⟨by simpa using hleds, hpairs, results, e2, hmm, hrec, h⟩

/-- Witness for C2: the driver on `\x7bA\x7d` with `L = 1` returns the parsed
instance at once; an empty selection returns the instance unchanged; one
budget-exhausting step on the running example reports its final state. -/
theorem claim_C2_witness :
    ((is_leds edsA 1 = true ∨ select_independent_merge_pairs edsA 1 = []) ∧
      edsA.n ≤ edsA.n) ∧
    driverGo 1 1 emptyEDS = .ok emptyEDS ∧
    (is_leds sampleEDS1 5 = false ∧
      select_independent_merge_pairs sampleEDS1 5 ≠ [] ∧
      ∃ results e2,
        merge_multiple_pairs sampleEDS1 (select_independent_merge_pairs sampleEDS1 5) =
          .ok results ∧
        reconstruct_eds sampleEDS1 results = .ok e2 ∧
        driverGo 5 0 e2 = .error .noConvergence) :=
  ⟨⟨(claim_C2.1 (("\x7bA\x7d").toList) none 1 edsA (by decide)).1,
    (claim_C2.1 (("\x7bA\x7d").toList) none 1 edsA (by decide)).2 edsA (by decide)⟩,
   claim_C2.2.1 1 0 emptyEDS (by decide),
   claim_C2.2.2 5 0 sampleEDS1 (by decide)⟩

theorem compactRender_nil : compactRender ([] : List (List (List Char))) = [] := rfl

theorem compactRender_cons (s : List (List Char)) (tl : List (List (List Char))) :
    compactRender (s :: tl) =
    (if 1 < s.length then renderSymbol s else List.intercalate [SET_SEPARATOR] s)
      ++ compactRender tl := by
  simp [compactRender]

theorem normalizeAux_open_nilcur (rest res : List Char) (d : Int) :
    normalizeAux (SET_OPEN :: rest) res [] d =
    normalizeAux rest (res ++ [SET_OPEN]) [] (d + 1) := by
  simp [normalizeAux]

theorem normalizeAux_open_flush (rest res cur : List Char) (hcur : cur ≠ []) :
    normalizeAux (SET_OPEN :: rest) res cur 0 =
    normalizeAux rest ((res ++ SET_OPEN :: cur ++ [SET_CLOSE]) ++ [SET_OPEN]) [] 1 := by
  simp [normalizeAux, hcur]

theorem normalizeAux_bare :
    ∀ (a : List Char), (∀ c ∈ a, c ≠ SET_OPEN ∧ c ≠ SET_CLOSE) →
      ∀ (tail res cur : List Char),
        normalizeAux (a ++ tail) res cur 0 = normalizeAux tail res (cur ++ a) 0
  | [], _ => by
      intro tail res cur
      simp
  | c :: a, ha => by
      intro tail res cur
      obtain ⟨h1, h2⟩ := ha c (List.mem_cons_self c a)
      show normalizeAux (c :: (a ++ tail)) res cur 0 = _
      simp only [normalizeAux, if_neg h1, if_neg h2,
        if_neg (by norm_num : ¬ (0 : Int) < 0)]
      rw [normalizeAux_bare a (fun x hx => ha x (List.mem_cons_of_mem c hx)) tail res (cur ++ [c])]
      simp

theorem normalizeAux_braced_body :
    ∀ (body : List Char), (∀ c ∈ body, c ≠ SET_OPEN ∧ c ≠ SET_CLOSE) →
      ∀ (tail res : List Char),
        normalizeAux (body ++ SET_CLOSE :: tail) res [] 1 =
        normalizeAux tail (res ++ body ++ [SET_CLOSE]) [] 0
  | [], _ => by
      intro tail res
      have h10 : (1 : Int) - 1 = 0 := by norm_num
      show normalizeAux (SET_CLOSE :: tail) res [] 1 = _
      simp only [normalizeAux, if_neg (Ne.symm openNeClose), if_pos rfl, h10]
      simp
  | c :: body, hb => by
      intro tail res
      obtain ⟨h1, h2⟩ := hb c (List.mem_cons_self c body)
      show normalizeAux (c :: (body ++ SET_CLOSE :: tail)) res [] 1 = _
      simp only [normalizeAux, if_neg h1, if_neg h2,
        if_pos (by norm_num : (0 : Int) < 1)]
      rw [normalizeAux_braced_body body (fun x hx => hb x (List.mem_cons_of_mem c hx)) tail
        (res ++ [c])]
      congr 1
      simp

theorem intercalate_sep_chars (s : List (List Char))
    (h : ∀ a ∈ s, ∀ c ∈ a, c ≠ SET_OPEN ∧ c ≠ SET_CLOSE) :
    ∀ c ∈ List.intercalate [SET_SEPARATOR] s, c ≠ SET_OPEN ∧ c ≠ SET_CLOSE := by
  intro c hc
  rcases mem_intercalate_sep s c hc with hc | ⟨a, ha, hca⟩
  · rw [hc]
    exact ⟨Ne.symm openNeSep, sepNeClose⟩
  · exact h a ha c hca

theorem normalize_compactRender :
    ∀ (sets : List (List (List Char))),
      (∀ s ∈ sets, s ≠ []) →
      (∀ s ∈ sets, ∀ a ∈ s, ∀ c ∈ a, c ≠ SET_OPEN ∧ c ≠ SET_CLOSE) →
      (∀ s ∈ sets, s.length ≤ 1 → s.headD [] ≠ []) →
      List.Chain' (fun s1 s2 => 1 < s1.length ∨ 1 < s2.length) sets →
      ∀ res : List Char,
        normalizeAux (compactRender sets) res [] 0 = res ++ bracedRender sets
  | [] => by
      intro _ _ _ _ res
      rw [compactRender_nil, bracedRender_nil]
      simp [normalizeAux]
  | s :: tl => by
      intro hne hchar hnd hadj res
      have h01 : (0 : Int) + 1 = 1 := by norm_num
      have hcharS := hchar s (List.mem_cons_self s tl)
      have hneT : ∀ x ∈ tl, x ≠ [] := fun x hx => hne x (List.mem_cons_of_mem s hx)
      have hcharT : ∀ x ∈ tl, ∀ a ∈ x, ∀ c ∈ a, c ≠ SET_OPEN ∧ c ≠ SET_CLOSE :=
        fun x hx => hchar x (List.mem_cons_of_mem s hx)
      have hndT : ∀ x ∈ tl, x.length ≤ 1 → x.headD [] ≠ [] :=
        fun x hx => hnd x (List.mem_cons_of_mem s hx)
      have hadjT : List.Chain' (fun s1 s2 => 1 < s1.length ∨ 1 < s2.length) tl :=
        hadj.tail
      by_cases hdeg : 1 < s.length
      · have hshape : compactRender (s :: tl) =
            SET_OPEN :: (List.intercalate [SET_SEPARATOR] s
              ++ SET_CLOSE :: compactRender tl) := by
          rw [compactRender_cons, if_pos hdeg]
          simp [renderSymbol]
        rw [hshape, normalizeAux_open_nilcur, h01,
          normalizeAux_braced_body _ (intercalate_sep_chars s hcharS),
          normalize_compactRender tl hneT hcharT hndT hadjT, bracedRender_cons]
        simp [renderSymbol]
      · obtain ⟨a, rfl⟩ : ∃ a, s = [a] := by
          rcases s with _ | ⟨a, _ | ⟨b, s'⟩⟩
          · exact absurd rfl (hne [] (by simp))
          · exact ⟨a, rfl⟩
          · exact absurd (by simp) hdeg
        have hA : a ≠ [] := by
          have := hnd [a] (List.mem_cons_self _ tl) (by simp)
          simpa using this
        have haChars : ∀ c ∈ a, c ≠ SET_OPEN ∧ c ≠ SET_CLOSE :=
          fun c hc => hcharS a (by simp) c hc
        have hpiece : compactRender ([a] :: tl) = a ++ compactRender tl := by
          rw [compactRender_cons, if_neg hdeg, intercalate_sep_single]
        rw [hpiece, normalizeAux_bare a haChars (compactRender tl) res []]
        simp only [List.nil_append]
        rcases tl with _ | ⟨s2, tl2⟩
        · rw [compactRender_nil]
          show normalizeAux [] res a 0 = _
          rw [bracedRender_cons, bracedRender_nil]
          simp [normalizeAux, hA, renderSymbol, intercalate_sep_single]
        · have hdeg2 : 1 < s2.length := by
            rcases (List.chain'_cons.mp hadj).1 with hrel | hrel
            · exact absurd hrel hdeg
            · exact hrel
          have hshape2 : compactRender (s2 :: tl2) =
              SET_OPEN :: (List.intercalate [SET_SEPARATOR] s2
                ++ SET_CLOSE :: compactRender tl2) := by
            rw [compactRender_cons, if_pos hdeg2]
            simp [renderSymbol]
          have hrec := normalize_compactRender (s2 :: tl2) hneT hcharT hndT hadjT
            (res ++ SET_OPEN :: a ++ [SET_CLOSE])
          rw [hshape2, normalizeAux_open_nilcur, h01,
            normalizeAux_braced_body _
              (intercalate_sep_chars s2 (hcharT s2 (List.mem_cons_self s2 tl2)))] at hrec
          rw [hshape2, normalizeAux_open_flush _ res a hA,
            normalizeAux_braced_body _
              (intercalate_sep_chars s2 (hcharT s2 (List.mem_cons_self s2 tl2)))]
          rw [hrec]
          simp [bracedRender_cons, renderSymbol, intercalate_sep_single]

theorem degOf_getD {sets : List (List (List Char))} {i : Nat} (h : i < sets.length) :
    (degOf sets).getD i false = decide (1 < (sets.getD i []).length) := by
  have hlen : i < (degOf sets).length := by simpa [degOf] using h
  rw [List.getD_eq_getElem _ _ hlen, List.getD_eq_getElem _ _ h]
  simp [degOf]

theorem save_compact_eq (e : EDS) (hdeg : e.is_degenerate = degOf e.sets) :
    save_chars e true = compactRender e.sets ++ ['\n'] := by
  unfold save_chars compactRender
  congr 1
  congr 1
  rw [← rangeMap_getD_comp e.sets []
    (fun s => if 1 < s.length then renderSymbol s else List.intercalate [SET_SEPARATOR] s)]
  apply List.map_congr_left
  intro i hi
  have hilt : i < e.sets.length := List.mem_range.mp hi
  show (if (¬ (true = true) ∨ e.is_degenerate.getD i false = true)
      then renderSymbol (e.sets.getD i [])
      else List.intercalate [SET_SEPARATOR] (e.sets.getD i [])) = _
  rw [hdeg]
  by_cases hc : 1 < (e.sets.getD i []).length
  · rw [if_pos (Or.inr (by rw [degOf_getD hilt]; exact decide_eq_true hc)), if_pos hc]
  · rw [if_neg ?hcond, if_neg hc]
    case hcond =>
      intro h
      rcases h with h | h
      · exact h rfl
      · rw [degOf_getD hilt] at h
        exact hc (of_decide_eq_true h)

theorem compactRender_chars :
    ∀ (sets : List (List (List Char))) (c : Char), c ∈ compactRender sets →
      c = SET_OPEN ∨ c = SET_CLOSE ∨ c = SET_SEPARATOR ∨ ∃ s ∈ sets, ∃ a ∈ s, c ∈ a
  | [], c => by simp [compactRender_nil]
  | s :: tl, c => by
      rw [compactRender_cons]
      intro hc
      rcases List.mem_append.mp hc with hc | hc
      · have hc2 : c ∈ renderSymbol s ∨ c ∈ List.intercalate [SET_SEPARATOR] s := by
          split at hc
          · exact Or.inl hc
          · exact Or.inr hc
        have hmain : c = SET_OPEN ∨ c = SET_CLOSE ∨ c = SET_SEPARATOR ∨ ∃ a ∈ s, c ∈ a := by
          rcases hc2 with hc2 | hc2
          · unfold renderSymbol at hc2
            rcases List.mem_cons.mp hc2 with hc2 | hc2
            · exact Or.inl hc2
            · rcases List.mem_append.mp hc2 with hc2 | hc2
              · rcases mem_intercalate_sep s c hc2 with hc2 | ⟨a, ha, hca⟩
                · exact Or.inr (Or.inr (Or.inl hc2))
                · exact Or.inr (Or.inr (Or.inr ⟨a, ha, hca⟩))
              · simp at hc2
                exact Or.inr (Or.inl hc2)
          · rcases mem_intercalate_sep s c hc2 with hc2 | ⟨a, ha, hca⟩
            · exact Or.inr (Or.inr (Or.inl hc2))
            · exact Or.inr (Or.inr (Or.inr ⟨a, ha, hca⟩))
        rcases hmain with h | h | h | ⟨a, ha, hca⟩
        · exact Or.inl h
        · exact Or.inr (Or.inl h)
        · exact Or.inr (Or.inr (Or.inl h))
        · exact Or.inr (Or.inr (Or.inr ⟨s, by simp, a, ha, hca⟩))
      · rcases compactRender_chars tl c hc with h | h | h | ⟨s2, hs2, a, ha, hca⟩
        · exact Or.inl h
        · exact Or.inr (Or.inl h)
        · exact Or.inr (Or.inr (Or.inl h))
        · exact Or.inr (Or.inr (Or.inr ⟨s2, List.mem_cons_of_mem s hs2, a, ha, hca⟩))

theorem compactRender_ne_nil (s : List (List Char)) (tl : List (List (List Char)))
    (hs : s ≠ []) (hhd : s.length ≤ 1 → s.headD [] ≠ []) :
    compactRender (s :: tl) ≠ [] := by
  rw [compactRender_cons]
  intro h
  rcases List.append_eq_nil.mp h with ⟨h1, -⟩
  by_cases hdeg : 1 < s.length
  · rw [if_pos hdeg] at h1
    simp [renderSymbol] at h1
  · obtain ⟨a, rfl⟩ : ∃ a, s = [a] := by
      rcases s with _ | ⟨a, _ | ⟨b, s'⟩⟩
      · exact absurd rfl hs
      · exact ⟨a, rfl⟩
      · exact absurd (by simp) hdeg
    rw [if_neg hdeg, intercalate_sep_single] at h1
    exact absurd h1 (by simpa using hhd (by simp))

/-- Claim C3 (amended): the compact round-trip reproduces the symbol contents
and metadata when no two adjacent symbols are both non-degenerate, every
non-degenerate symbol's single alternative is non-empty, and no alternative
contains an opening brace. -/
theorem claim_C3 (t : List Char) (E : EDS) (hparse : EDS.parse t = .ok E)
    (hopen : ∀ s ∈ E.sets, ∀ a ∈ s, ∀ c ∈ a, c ≠ SET_OPEN)
    (hnd : ∀ s ∈ E.sets, s.length ≤ 1 → s.headD [] ≠ [])
    (hadj : List.Chain' (fun s1 s2 => 1 < s1.length ∨ 1 < s2.length) E.sets) :
    ∃ E2, EDS.parse (save_chars E true) = .ok E2 ∧ E2.sets = E.sets ∧
      E2.n = E.n ∧ E2.m = E.m ∧ E2.N = E.N ∧
      E2.symbol_sizes = E.symbol_sizes ∧ E2.string_lengths = E.string_lengths ∧
      E2.is_degenerate = E.is_degenerate := by
  obtain ⟨hwf, hclean⟩ := parse_WF t E hparse
  have hwfc := hwf
  obtain ⟨-, hn, hm, hN, hsz, hlen, -, hdegE, -, -, -, hne12, -⟩ := hwfc
  have hsave := save_compact_eq E hdegE
  have hchar2 : ∀ s ∈ E.sets, ∀ a ∈ s, ∀ c ∈ a, c ≠ SET_OPEN ∧ c ≠ SET_CLOSE :=
    fun s hs a ha c hc => ⟨hopen s hs a ha c hc, (hclean s hs a ha c hc).1⟩
  have hnospace : ∀ c ∈ compactRender E.sets, (¬ isSpace c : Bool) = true := by
    intro c hc
    rcases compactRender_chars E.sets c hc with hc | hc | hc | ⟨s, hs, a, ha, hca⟩
    · rw [hc]; decide
    · rw [hc]; decide
    · rw [hc]; decide
    · simp [(hclean s hs a ha c hca).2.2]
  have hfilter : (compactRender E.sets ++ ['\n']).filter (fun c => ¬ isSpace c)
      = compactRender E.sets := by
    rw [List.filter_append, List.filter_eq_self.mpr hnospace]
    simp [isSpace]
  have hnorm : normalize_eds_format (compactRender E.sets) = bracedRender E.sets := by
    unfold normalize_eds_format
    rw [normalize_compactRender E.sets hne12 hchar2 hnd hadj []]
    simp
  rcases hEsets : E.sets with _ | ⟨s, tl⟩
  · refine ⟨emptyEDS, ?_, ?_, ?_, ?_, ?_, ?_, ?_, ?_⟩
    · rw [hsave, hEsets]
      unfold EDS.parse
      rw [compactRender_nil]
      simp [isSpace]
    · rfl
    · show 0 = E.n
      rw [hn, hEsets]; rfl
    · show 0 = E.m
      rw [hm, hEsets]; rfl
    · show 0 = E.N
      rw [hN, hEsets]; rfl
    · show ([] : List Nat) = E.symbol_sizes
      rw [hsz, hEsets]; rfl
    · show ([] : List Nat) = E.string_lengths
      rw [hlen, hEsets]; rfl
    · show ([] : List Bool) = E.is_degenerate
      rw [hdegE, hEsets]; rfl
  · rw [← hEsets]
    have hcrne : compactRender E.sets ≠ [] := by
      rw [hEsets]
      exact compactRender_ne_nil s tl (hne12 s (by rw [hEsets]; simp))
        (hnd s (by rw [hEsets]; simp))
    obtain ⟨st2, heq2, hsets2, hn2⟩ := parseLoop_render E.sets
      ((bracedRender E.sets).length + 1) 0 Build.empty hne12
      (fun x hx a ha c hc => ⟨(hchar2 x hx a ha c hc).2, (hclean x hx a ha c hc).2.1⟩)
      (Nat.lt_succ_of_le (length_le_bracedRender E.sets))
    have hsets3 : st2.sets = E.sets := by
      rw [hsets2]; simp [Build.empty]
    have hn3 : st2.n = E.sets.length := by
      rw [hn2]; simp [Build.empty]
    have hn0 : st2.n ≠ 0 := by
      rw [hn3, hEsets]; simp
    have heq : EDS.parse (save_chars E true) = .ok (finalizeBuild st2) := by
      rw [hsave]
      unfold EDS.parse
      rw [hfilter, if_neg hcrne, hnorm]
      simp only [heq2]
      rw [if_neg hn0]
    obtain ⟨hwf2, -⟩ := parse_WF _ _ heq
    obtain ⟨-, hn', hm', hN', hsz', hlen', -, hdeg', -, -, -, -, -⟩ := hwf2
    have hsetsEq : (finalizeBuild st2).sets = E.sets := hsets3
    refine ⟨finalizeBuild st2, heq, hsetsEq, ?_, ?_, ?_, ?_, ?_, ?_⟩
    · rw [hn', hsetsEq, hn]
    · rw [hm', hsetsEq, hm]
    · rw [hN', hsetsEq, hN]
    · rw [hsz', hsetsEq, hsz]
    · rw [hlen', hsetsEq, hlen]
    · rw [hdeg', hsetsEq, hdegE]

/-- Counterexample to the original C3: `\x7bA\x7d\x7bB\x7d` parses to two
symbols, but its compact serialization `AB` reparses as a single symbol. -/
theorem claim_C3_counterexample :
    EDS.parse (("\x7bA\x7d\x7bB\x7d").toList) = .ok cexC3 ∧
    EDS.parse (save_chars cexC3 true) = .ok cexC3r ∧
    cexC3r.n ≠ cexC3.n := by decide

/-- Witness for C3: the compact round-trip of `\x7bA,C\x7d\x7bG\x7d\x7bT,A\x7d`
reproduces all symbol contents and metadata. -/
theorem claim_C3_witness :
    ∃ E2, EDS.parse (save_chars c3E true) = .ok E2 ∧ E2.sets = c3E.sets ∧
      E2.n = c3E.n ∧ E2.m = c3E.m ∧ E2.N = c3E.N ∧
      E2.symbol_sizes = c3E.symbol_sizes ∧ E2.string_lengths = c3E.string_lengths ∧
      E2.is_degenerate = c3E.is_degenerate :=
  claim_C3 (("\x7bA,C\x7d\x7bG\x7d\x7bT,A\x7d").toList) c3E (by decide) (by decide)
    (by decide)
    (by
      have hs : c3E.sets = [[['A'], ['C']], [['G']], [['T'], ['A']]] := by decide
      rw [hs]
      refine List.chain'_cons.mpr ⟨Or.inl (by decide),
        List.chain'_cons.mpr ⟨Or.inr (by decide), ?_⟩⟩
      exact List.chain'_singleton _)

end edsparser
